import Mathlib

/-!
# Verification of the PPO training loop (`score_following_game`)

Shallow embedding of `reinforcement_learning/algorithms/ppo/ppo.py`
(`PPOAgent.train` and its helpers).  Tensors of shape
`(slots, n_worker, 1)` are embedded as functions `ℕ → ℕ → ℚ`
(slot ↦ worker ↦ value); observation tensors carry an extra abstract
element index `μ` for their flattened feature shape.  Float arithmetic is
modelled by exact rationals; the black-box collaborators named by the spec
(the network, the environment, the multinomial sampler, `exp`/`sqrt`) are
abstract parameters.  `θ` is the mutable network/optimizer state, `P` the
policy head returned by a forward pass, `σ` the learning-rate scheduler
state, `S` the key type of the evaluator's statistics dictionary.
-/

namespace PPO

variable {θ μ P EnvS σ S : Type}

/-- `tensor.mean()`: sum of all entries divided by the number of entries
(Lean's junk value `0` for an empty list, where torch would give NaN). -/
def meanQ (l : List ℚ) : ℚ := l.sum / l.length

/-! ## The backward GAE/returns loop (ppo.py lines 136-142)

The loop body for `for step in reversed(range(self.t_max))`:
`delta = rewards[step] + gamma * value_predictions[step+1] * masks[step] - value_predictions[step]`,
`gae = delta + gamma * gae_lambda * masks[step] * gae`,
`returns[step] = gae + value_predictions[step]`.
The accumulator holds the `returns` tensor and the running `gae` tensor. -/

def gaeBody (γ lam : ℚ) (rewards vp masks : ℕ → ℕ → ℚ)
    (acc : (ℕ → ℕ → ℚ) × (ℕ → ℚ)) (step : ℕ) : (ℕ → ℕ → ℚ) × (ℕ → ℚ) :=
  let delta : ℕ → ℚ := fun w =>
    rewards step w + γ * vp (step + 1) w * masks step w - vp step w
  let gae : ℕ → ℚ := fun w => delta w + γ * lam * masks step w * acc.2 w
  (Function.update acc.1 step (fun w => gae w + vp step w), gae)

/-- The `returns` tensor after the backward loop, starting from the previous
contents `init` of `returns` (zeros on the first update) and `gae = 0`. -/
def returnsCalc (tmax : ℕ) (γ lam : ℚ) (rewards vp masks : ℕ → ℕ → ℚ)
    (init : ℕ → ℕ → ℚ) : ℕ → ℕ → ℚ :=
  (((List.range tmax).reverse).foldl (gaeBody γ lam rewards vp masks)
    (init, fun _ => 0)).1

/-- Fuel-indexed GAE recursion: `gaeFuel … g0 k t w` is the GAE value at step
`t` when the recursion bottoms out with value `g0` after `k` more steps. -/
def gaeFuel (γ lam : ℚ) (rewards vp masks : ℕ → ℕ → ℚ) (g0 : ℕ → ℚ) :
    ℕ → ℕ → ℕ → ℚ
  | 0, _, w => g0 w
  | k + 1, t, w =>
    (rewards t w + γ * vp (t + 1) w * masks t w - vp t w)
      + γ * lam * masks t w * gaeFuel γ lam rewards vp masks g0 k (t + 1) w

/-- The spec's backward generalized-advantage-estimation recursion:
`gae(t_max) = 0` and, for `t < t_max`,
`gae(t) = delta(t) + gamma * gae_lambda * masks[t] * gae(t+1)` with
`delta(t) = rewards[t] + gamma * value_predictions[t+1] * masks[t] - value_predictions[t]`. -/
def gaeSpec (tmax : ℕ) (γ lam : ℚ) (rewards vp masks : ℕ → ℕ → ℚ)
    (t w : ℕ) : ℚ :=
  gaeFuel γ lam rewards vp masks (fun _ => 0) (tmax - t) t w

/-! ## Advantage normalization (ppo.py lines 144-145)

`advantages = (advantages - advantages.mean()) / advantages.std()` — no
epsilon and no zero-divisor guard.  `.std()` is the unbiased standard
deviation `sqrt(Σ (x − mean)² / (n − 1))`; the float square root is an
abstract `fsqrt`.  A zero divisor makes every float entry NaN; the embedding
tracks that definedness with an `Option`. -/

/-- Unbiased variance of a flattened tensor (the square of `.std()`). -/
def varQ (l : List ℚ) : ℚ :=
  (l.map (fun x => (x - meanQ l) ^ 2)).sum / ((l.length : ℚ) - 1)

/-- `(advantages - advantages.mean()) / advantages.std()` entry-wise, with
`std = fsqrt ∘ varQ`. -/
def normalizeAdv (fsqrt : ℚ → ℚ) (l : List ℚ) : List ℚ :=
  l.map (fun a => (a - meanQ l) / fsqrt (varQ l))

/-- Definedness-tracking form of the normalization: `none` exactly when the
divisor `advantages.std()` is zero (float NaN poisoning). -/
def normalizeAdvChecked (fsqrt : ℚ → ℚ) (l : List ℚ) : Option (List ℚ) :=
  if fsqrt (varQ l) = 0 then none else some (normalizeAdv fsqrt l)

/-! ## Flattening of the rollout tensors (ppo.py lines 151-163)

`tensor.view(-1, *tensor.size()[2:])` on a contiguous tensor whose leading
axes are `(slots, n_worker)` lays the entries out row-major: flat index `i`
holds entry `(i / n_worker, i % n_worker)`. -/

/-- Row-major flattening of the two leading axes (`tlen` slots, `nw` workers)
of a tensor. -/
def flatView {α : Type} (nw tlen : ℕ) (x : ℕ → ℕ → α) : List α :=
  (List.range tlen).flatMap (fun t => (List.range nw).map (fun w => x t w))

/-! ## Black-box collaborators -/

/-- The shared policy/value network with its optimizer
(`self.model`): `forward` is `model(obs)` returning `(policy, value)` per
sample, `forwardValue` is `model.forward_value`, `update` is
`model.update([action_loss, value_loss, dist_entropy])` (one gradient step),
`lrOf` reads `model.optimizer.param_groups[0]['lr']`. -/
structure PPOModel (θ μ P : Type) where
  forward : θ → (μ → ℚ) → P × ℚ
  forwardValue : θ → (μ → ℚ) → ℚ
  update : θ → ℚ × ℚ × ℚ → θ
  lrOf : θ → ℚ

/-- Float operations on policy heads and scalars: `fexp` is `torch.exp`,
`fsqrt` the square root inside `.std()`, `logSoftmaxAt p a` is
`F.log_softmax(p).gather(1, a)` (`_get_log_probs`), and `sumPLogP p` is
`(log_probs * probabilities).sum(-1)` per sample (`_calc_entropy`). -/
structure FloatOps (P : Type) where
  fexp : ℚ → ℚ
  fsqrt : ℚ → ℚ
  logSoftmaxAt : P → ℤ → ℚ
  sumPLogP : P → ℚ

/-- The vectorized environment: `reset` returns the first observations of all
workers, `step` consumes one action per worker and returns the next states,
rewards and done flags. -/
structure EnvOps (μ EnvS : Type) where
  reset : EnvS → EnvS × (ℕ → μ → ℚ)
  step : EnvS → (ℕ → ℤ) → EnvS × (ℕ → μ → ℚ) × (ℕ → ℚ) × (ℕ → Bool)

/-- `ratio.clamp(1.0 - epsilon, 1.0 + epsilon)`: `torch.clamp` applies the
lower bound first, then the upper bound. -/
def clampQ (x lo hi : ℚ) : ℚ := min (max x lo) hi

/-! ## One minibatch of the PPO update (ppo.py lines 150-174) -/

/-- The loss triple `(action_loss, value_loss, dist_entropy)` computed for one
sampled minibatch and handed to `self.model.update`.  The flattened rollout
tensors are indexed by the sampled flat indices; `w` is the current network
state. -/
def minibatchLosses (M : PPOModel θ μ P) (F : FloatOps P)
    (w : θ) (eps : ℚ) (obsFlat : List (μ → ℚ)) (actFlat : List ℤ)
    (retFlat oldlpFlat advFlat : List ℚ) (indices : List ℕ) : ℚ × ℚ × ℚ :=
  let states_batch := indices.map (fun i => obsFlat.getD i (fun _ => 0))
  let actions_batch := indices.map (fun i => actFlat.getD i 0)
  let return_batch := indices.map (fun i => retFlat.getD i 0)
  let old_log_probs_batch := indices.map (fun i => oldlpFlat.getD i 0)
  let policy := states_batch.map (fun s => (M.forward w s).1)
  let values := states_batch.map (fun s => (M.forward w s).2)
  let action_log_probabilities := List.zipWith F.logSoftmaxAt policy actions_batch
  let ratios := List.zipWith (fun a b => F.fexp (a - b))
    action_log_probabilities old_log_probs_batch
  let advantage_target := indices.map (fun i => advFlat.getD i 0)
  let surr1 := List.zipWith (fun r a => r * a) ratios advantage_target
  let surr2 := List.zipWith (fun r a => clampQ r (1 - eps) (1 + eps) * a)
    ratios advantage_target
  let action_loss := -meanQ (List.zipWith min surr1 surr2)
  let dist_entropy := -meanQ (policy.map F.sumPLogP)
  let value_loss := meanQ (List.zipWith (fun r v => (r - v) ^ 2) return_batch values)
  (action_loss, value_loss, dist_entropy)

/-! ## The epoch/minibatch sampler (ppo.py lines 146-150)

`BatchSampler(SubsetRandomSampler(list(range(n_worker * t_max))),
batch_size * n_worker, drop_last=False)`: the shuffled index list (an
arbitrary permutation of `range(n_worker * t_max)`) is split into
consecutive minibatches of size `batch_size * n_worker`, the last one
possibly smaller, none dropped. -/

/-- Split a list into consecutive chunks of size `k`; the fuel (instantiated
with the list length) bounds the number of rounds and makes the recursion
structural. -/
def chunksFuel {α : Type} (k : ℕ) : ℕ → List α → List (List α)
  | 0, _ => []
  | _ + 1, [] => []
  | fuel + 1, x :: xs => ((x :: xs).take k) :: chunksFuel k fuel ((x :: xs).drop k)

/-- The minibatches yielded by the `BatchSampler` for one epoch. -/
def batchChunks {α : Type} (k : ℕ) (l : List α) : List (List α) :=
  chunksFuel k l.length l

/-- One minibatch step of the inner update loop: compute the loss triple with
the current network state, call `model.update` on it, and record the call. -/
def epochBody (M : PPOModel θ μ P) (F : FloatOps P) (eps : ℚ)
    (obsFlat : List (μ → ℚ)) (actFlat : List ℤ)
    (retFlat oldlpFlat advFlat : List ℚ)
    (acc : θ × List (ℚ × ℚ × ℚ)) (indices : List ℕ) : θ × List (ℚ × ℚ × ℚ) :=
  let losses := minibatchLosses M F acc.1 eps obsFlat actFlat retFlat
    oldlpFlat advFlat indices
  (M.update acc.1 losses, acc.2 ++ [losses])

/-- `for _ in range(self.ppo_epoch): for indices in sampler: …` — the double
loop over epochs and minibatches, threading the network state through
`model.update` and recording every update call's loss triple.  `perms ep` is
the shuffled index list drawn by `SubsetRandomSampler` in epoch `ep`. -/
def epochsLoop (M : PPOModel θ μ P) (F : FloatOps P) (eps : ℚ)
    (ppoEpoch k : ℕ) (perms : ℕ → List ℕ) (obsFlat : List (μ → ℚ))
    (actFlat : List ℤ) (retFlat oldlpFlat advFlat : List ℚ) (w0 : θ) :
    θ × List (ℚ × ℚ × ℚ) :=
  (List.range ppoEpoch).foldl
    (fun acc ep =>
      (batchChunks k (perms ep)).foldl
        (epochBody M F eps obsFlat actFlat retFlat oldlpFlat advFlat) acc)
    (w0, [])

/-! ## The rollout loop (ppo.py lines 88-133) -/

/-- The mutable tensors of `PPOAgent.train`, plus the environment state. -/
structure RState (μ EnvS : Type) where
  env : EnvS
  observations : ℕ → ℕ → μ → ℚ
  valuePredictions : ℕ → ℕ → ℚ
  oldLogProbs : ℕ → ℕ → ℚ
  rewards : ℕ → ℕ → ℚ
  masks : ℕ → ℕ → ℚ
  actions : ℕ → ℕ → ℤ
  returns : ℕ → ℕ → ℚ
  episodeRewards : ℕ → ℚ
  finalRewards : ℕ → ℚ

/-- The per-worker policy heads of `policy, value = self.model(...)` at slot
`step` of a tensor state. -/
def stepHeads (M : PPOModel θ μ P) (w : θ) (s : RState μ EnvS) (step : ℕ) :
    ℕ → P :=
  fun j => (M.forward w (s.observations step j)).1

/-- The per-worker value predictions of `policy, value = self.model(...)` at
slot `step` of a tensor state. -/
def stepVals (M : PPOModel θ μ P) (w : θ) (s : RState μ EnvS) (step : ℕ) :
    ℕ → ℚ :=
  fun j => (M.forward w (s.observations step j)).2

/-- The `state, reward, done, _ = self.env.step(np_actions)` output of one
rollout step taken from tensor state `s`. -/
def stepOut (E : EnvOps μ EnvS) (M : PPOModel θ μ P)
    (sampleA : ℕ → ℕ → (ℕ → P) → ℕ → ℤ) (w : θ) (it step : ℕ)
    (s : RState μ EnvS) : EnvS × (ℕ → μ → ℚ) × (ℕ → ℚ) × (ℕ → Bool) :=
  E.step s.env (sampleA it step (stepHeads M w s step))

/-- One iteration of `for step in range(self.t_max)` (lines 88-133): forward
the model on the stored observations of slot `step`, sample actions
(`sampleA` is the multinomial oracle), take the chosen-action log
probabilities, step the environment, build the `0/1` masks from the done
flags, zero the next observations of finished workers, and store everything
into slot `step` (observations into slot `step + 1`), with the
episode/final-reward bookkeeping of lines 106 and 131-133. -/
def rolloutStep (E : EnvOps μ EnvS) (M : PPOModel θ μ P) (F : FloatOps P)
    (sampleA : ℕ → ℕ → (ℕ → P) → ℕ → ℤ) (w : θ) (it step : ℕ)
    (s : RState μ EnvS) : RState μ EnvS :=
  let policy : ℕ → P := stepHeads M w s step
  let value : ℕ → ℚ := stepVals M w s step
  let acts : ℕ → ℤ := sampleA it step policy
  let log_probs : ℕ → ℚ := fun j => F.logSoftmaxAt (policy j) (acts j)
  let out := E.step s.env acts
  let state : ℕ → μ → ℚ := out.2.1
  let reward : ℕ → ℚ := out.2.2.1
  let done : ℕ → Bool := out.2.2.2
  let np_masks : ℕ → ℚ := fun j => if done j then 0 else 1
  let maskedState : ℕ → μ → ℚ := fun j x => state j x * np_masks j
  { env := out.1
    observations := Function.update s.observations (step + 1) maskedState
    valuePredictions := Function.update s.valuePredictions step value
    oldLogProbs := Function.update s.oldLogProbs step log_probs
    rewards := Function.update s.rewards step reward
    masks := Function.update s.masks step np_masks
    actions := Function.update s.actions step acts
    returns := s.returns
    episodeRewards := fun j => (s.episodeRewards j + reward j) * np_masks j
    finalRewards := fun j =>
      s.finalRewards j * np_masks j + (1 - np_masks j) * (s.episodeRewards j + reward j) }

/-- The state after the first `n` rollout steps. -/
def rolloutN (E : EnvOps μ EnvS) (M : PPOModel θ μ P) (F : FloatOps P)
    (sampleA : ℕ → ℕ → (ℕ → P) → ℕ → ℤ) (w : θ) (it : ℕ) :
    ℕ → RState μ EnvS → RState μ EnvS
  | 0, s => s
  | n + 1, s => rolloutStep E M F sampleA w it n
      (rolloutN E M F sampleA w it n s)

/-- Observable calls made by `train`: `env.reset()`, each `env.step` of a
rollout, each `model.update` with its loss triple, and each
`store_model`. -/
inductive TrainEvent where
  | envResetCall : TrainEvent
  | envStepCall (iter step : ℕ) : TrainEvent
  | modelUpdateCall (iter : ℕ) (losses : ℚ × ℚ × ℚ) : TrainEvent
  | storeModelCall (iter : ℕ) : TrainEvent
deriving DecidableEq

/-- The rollout loop in its source form, recording one `env.step` call per
rollout step. -/
def rolloutLoopEv (E : EnvOps μ EnvS) (M : PPOModel θ μ P) (F : FloatOps P)
    (sampleA : ℕ → ℕ → (ℕ → P) → ℕ → ℤ) (w : θ) (it tmax : ℕ)
    (s : RState μ EnvS) : RState μ EnvS × List TrainEvent :=
  (List.range tmax).foldl
    (fun acc step =>
      (rolloutStep E M F sampleA w it step acc.1,
        acc.2 ++ [TrainEvent.envStepCall it step]))
    (s, [])

/-- The constructor arguments of `PPOAgent.__init__` used by `train`. -/
structure PPOConfig where
  tMax : ℕ
  nWorker : ℕ
  gamma : ℚ
  gaeLambda : ℚ
  ppoEpoch : ℕ
  epsilon : ℚ
  batchSize : ℕ

/-- One iteration of the update loop body (lines 88-178, excluding the
logging/evaluation tail): rollout, bootstrap value of the final observations,
backward GAE/returns loop, advantage normalization, `ppo_epoch` epochs of
minibatch updates, and the copy of the final observations into slot 0.
Returns the new network state, the new tensor state, and the iteration's
event trace.  `perms it ep` is the index permutation drawn in epoch `ep` of
iteration `it`. -/
def trainIteration (E : EnvOps μ EnvS) (M : PPOModel θ μ P) (F : FloatOps P)
    (sampleA : ℕ → ℕ → (ℕ → P) → ℕ → ℤ) (cfg : PPOConfig)
    (perms : ℕ → ℕ → List ℕ) (it : ℕ) (w : θ) (s : RState μ EnvS) :
    θ × RState μ EnvS × List TrainEvent :=
  let ro := rolloutLoopEv E M F sampleA w it cfg.tMax s
  let r := ro.1
  let vp := Function.update r.valuePredictions cfg.tMax
    (fun j => M.forwardValue w (r.observations cfg.tMax j))
  let rets := returnsCalc cfg.tMax cfg.gamma cfg.gaeLambda r.rewards vp
    r.masks r.returns
  let advFlat := normalizeAdv F.fsqrt
    (flatView cfg.nWorker cfg.tMax (fun t j => rets t j - vp t j))
  let obsFlat := flatView cfg.nWorker cfg.tMax r.observations
  let actFlat := flatView cfg.nWorker cfg.tMax r.actions
  let retFlat := flatView cfg.nWorker cfg.tMax rets
  let oldlpFlat := flatView cfg.nWorker (cfg.tMax + 1) r.oldLogProbs
  let ep := epochsLoop M F cfg.epsilon cfg.ppoEpoch
    (cfg.batchSize * cfg.nWorker) (perms it) obsFlat actFlat retFlat
    oldlpFlat advFlat w
  let s' := { r with
    valuePredictions := vp
    returns := rets
    observations := Function.update r.observations 0 (r.observations cfg.tMax) }
  (ep.1, s', ro.2 ++ (ep.2.map (TrainEvent.modelUpdateCall it)))

/-- The evaluation/scheduling collaborators of `train`: the optional
evaluator (`evaluator.evaluate` produces a statistics dictionary), the
optional score name, the optional learning-rate scheduler
(`lr_scheduler.step(stats[score_name])`, which mutates the scheduler and the
optimizer inside the model state), and the intervals. -/
structure EvalCtx (θ σ S : Type) where
  evaluator : Option (ℕ → θ → S → ℚ)
  scoreName : Option S
  lrSched : Option (σ → θ → ℚ → σ × θ)
  evalInterval : ℕ
  dumpInterval : ℕ
  highIsBetter : Bool

/-- `improvement = (high_is_better and score >= best) or (not high_is_better
and score <= best)`, with `best` initialized to `∓inf` (the `none` case). -/
def improvementB (highIsBetter : Bool) (best : Option ℚ) (score : ℚ) : Bool :=
  match best with
  | none => true
  | some b => if highIsBetter then decide (b ≤ score) else decide (score ≤ b)

/-- The evaluation tail of one update iteration (lines 196-214): when an
evaluator is present and `i % eval_interval == 0`, evaluate; when a score
name is present, step the optional scheduler and break if the learning rate
reached exactly 0, otherwise update the best score (storing the model on
improvement).  Returns the new network state, scheduler state, best score,
emitted events, and the break flag. -/
def evalPhase (M : PPOModel θ μ P) (C : EvalCtx θ σ S) (i : ℕ)
    (w : θ) (sched : σ) (best : Option ℚ) :
    θ × σ × Option ℚ × List TrainEvent × Bool :=
  match C.evaluator with
  | none => (w, sched, best, [], false)
  | some ev =>
    if i % C.evalInterval = 0 then
      let stats := ev i w
      match C.scoreName with
      | none => (w, sched, best, [], false)
      | some sn =>
        let score := stats sn
        match C.lrSched with
        | none =>
          if improvementB C.highIsBetter best score then
            (w, sched, some score, [TrainEvent.storeModelCall i], false)
          else (w, sched, best, [], false)
        | some st =>
          let r := st sched w score
          if M.lrOf r.2 = 0 then (r.2, r.1, best, [], true)
          else if improvementB C.highIsBetter best score then
            (r.2, r.1, some score, [TrainEvent.storeModelCall i], false)
          else (r.2, r.1, best, [], false)
    else (w, sched, best, [], false)

/-- The per-iteration mutable state of the update loop. -/
structure LoopState (θ σ μ EnvS : Type) where
  w : θ
  sched : σ
  best : Option ℚ
  r : RState μ EnvS

/-- The update loop `for i in range(1, max_updates + 1)` from iteration `i`
with `fuel` iterations left: run one iteration, run the evaluation tail,
stop on break, otherwise store the model at dump intervals and continue.
Returns the final state, the list of executed iteration indices, and the
event trace. -/
def trainAux (E : EnvOps μ EnvS) (M : PPOModel θ μ P) (F : FloatOps P)
    (sampleA : ℕ → ℕ → (ℕ → P) → ℕ → ℤ) (cfg : PPOConfig)
    (C : EvalCtx θ σ S) (perms : ℕ → ℕ → List ℕ) :
    ℕ → ℕ → LoopState θ σ μ EnvS →
      LoopState θ σ μ EnvS × List ℕ × List TrainEvent
  | 0, _, st => (st, [], [])
  | fuel + 1, i, st =>
    let it := trainIteration E M F sampleA cfg perms i st.w st.r
    let ev := evalPhase M C i it.1 st.sched st.best
    let st' : LoopState θ σ μ EnvS := ⟨ev.1, ev.2.1, ev.2.2.1, it.2.1⟩
    if ev.2.2.2.2 then (st', [i], it.2.2 ++ ev.2.2.2.1)
    else
      let dumpEvs := if i % C.dumpInterval = 0
        then [TrainEvent.storeModelCall i] else []
      let next := trainAux E M F sampleA cfg C perms fuel (i + 1) st'
      (next.1, i :: next.2.1, it.2.2 ++ ev.2.2.2.1 ++ dumpEvs ++ next.2.2)

/-- The tensor state set up by lines 40-59: all tensors zero except slot 0 of
the observations, which receives the observations returned by
`env.reset()`. -/
def initialRState (E : EnvOps μ EnvS) (env0 : EnvS) : RState μ EnvS :=
  let rr := E.reset env0
  { env := rr.1
    observations := Function.update (fun _ _ _ => 0) 0 rr.2
    valuePredictions := fun _ _ => 0
    oldLogProbs := fun _ _ => 0
    rewards := fun _ _ => 0
    masks := fun _ _ => 0
    actions := fun _ _ => 0
    returns := fun _ _ => 0
    episodeRewards := fun _ => 0
    finalRewards := fun _ => 0 }

/-- `PPOAgent.train(max_updates, …)`: reset the environment once, store the
first observations into slot 0, then run the update loop. -/
def train (E : EnvOps μ EnvS) (M : PPOModel θ μ P) (F : FloatOps P)
    (sampleA : ℕ → ℕ → (ℕ → P) → ℕ → ℤ) (cfg : PPOConfig)
    (C : EvalCtx θ σ S) (perms : ℕ → ℕ → List ℕ) (maxUpdates : ℕ)
    (w0 : θ) (sched0 : σ) (env0 : EnvS) :
    LoopState θ σ μ EnvS × List ℕ × List TrainEvent :=
  let res := trainAux E M F sampleA cfg C perms maxUpdates 1
    ⟨w0, sched0, none, initialRState E env0⟩
  (res.1, res.2.1, TrainEvent.envResetCall :: res.2.2)

/-! ## Concrete black-box instances

Used only by the closed-form witnesses below: a one-worker environment whose
episodes end immediately (`unitEnv`), one that never ends (`quietEnv`), toy
networks, the constant sampler, the all-zero tensor state, a
`t_max = n_worker = batch_size = ppo_epoch = 1` configuration, and an
evaluation context whose scheduler drives the learning rate to 0 at once. -/

def unitEnv : EnvOps Unit Unit :=
  ⟨fun _ => ((), fun _ _ => 0),
   fun _ _ => ((), fun _ _ => 1, fun _ => 2, fun _ => true)⟩

def quietEnv : EnvOps Unit Unit :=
  ⟨fun _ => ((), fun _ _ => 0),
   fun _ _ => ((), fun _ _ => 0, fun _ => 0, fun _ => false)⟩

def unitModel : PPOModel Unit Unit Unit :=
  ⟨fun _ _ => ((), 5), fun _ _ => 7, fun _ _ => (), fun _ => 0⟩

def lrModel : PPOModel ℚ Unit Unit :=
  ⟨fun _ _ => ((), 0), fun _ _ => 0, fun w _ => w, fun w => w⟩

def unitFloats : FloatOps Unit := ⟨id, id, fun _ _ => 3, fun _ => 0⟩

def zeroSampler : ℕ → ℕ → (ℕ → Unit) → ℕ → ℤ := fun _ _ _ _ => 0

def zeroRState : RState Unit Unit :=
  ⟨(), fun _ _ _ => 0, fun _ _ => 0, fun _ _ => 0, fun _ _ => 0,
   fun _ _ => 0, fun _ _ => 0, fun _ _ => 0, fun _ => 0, fun _ => 0⟩

def tinyConfig : PPOConfig := ⟨1, 1, 0, 0, 1, 0, 1⟩

def haltingEvalCtx : EvalCtx ℚ Unit Unit :=
  ⟨some (fun _ _ _ => 0), some (), some (fun _ _ _ => ((), 0)), 1, 1, false⟩

/-! ## Lemmas and theorems -/

lemma range_reverse_succ (n : ℕ) :
    (List.range (n + 1)).reverse = n :: (List.range n).reverse := by
  rw [List.range_succ, List.reverse_append]
  rfl

/-- The backward loop never writes a `returns` slot at or above its range. -/
lemma gae_fold_frozen (γ lam : ℚ) (rewards vp masks : ℕ → ℕ → ℚ) :
    ∀ (n : ℕ) (acc : (ℕ → ℕ → ℚ) × (ℕ → ℚ)) (t : ℕ), n ≤ t →
      (((List.range n).reverse).foldl (gaeBody γ lam rewards vp masks) acc).1 t
        = acc.1 t := by
  intro n
  induction n with
  | zero => intro acc t _; rfl
  | succ n ih =>
    intro acc t ht
    rw [range_reverse_succ, List.foldl_cons]
    rw [ih _ t (by omega)]
    simp only [gaeBody]
    exact Function.update_noteq (by omega) _ _

/-- Shifting the bottom of the fuel-indexed recursion by one step. -/
lemma gaeFuel_shift (γ lam : ℚ) (rewards vp masks : ℕ → ℕ → ℚ) (g0 : ℕ → ℚ) :
    ∀ (k t w : ℕ),
      gaeFuel γ lam rewards vp masks
        (fun w' => (rewards (t + k) w' + γ * vp (t + k + 1) w' * masks (t + k) w'
            - vp (t + k) w') + γ * lam * masks (t + k) w' * g0 w') k t w
        = gaeFuel γ lam rewards vp masks g0 (k + 1) t w := by
  intro k
  induction k with
  | zero => intro t w; simp [gaeFuel]
  | succ k ih =>
    intro t w
    have h1 : t + (k + 1) = (t + 1) + k := by omega
    simp only [gaeFuel]
    rw [h1]
    rw [ih (t + 1) w]
    simp only [gaeFuel]

/-- Loop invariant of the backward loop: each written `returns` slot equals
the fuel-indexed GAE value (bottoming out at the incoming `gae` accumulator)
plus the value prediction. -/
lemma gae_fold_invariant (γ lam : ℚ) (rewards vp masks : ℕ → ℕ → ℚ) :
    ∀ (n : ℕ) (acc : (ℕ → ℕ → ℚ) × (ℕ → ℚ)) (t : ℕ), t < n → ∀ (w : ℕ),
      (((List.range n).reverse).foldl (gaeBody γ lam rewards vp masks) acc).1 t w
        = gaeFuel γ lam rewards vp masks acc.2 (n - t) t w + vp t w := by
  intro n
  induction n with
  | zero => intro acc t ht; omega
  | succ n ih =>
    intro acc t ht w
    rw [range_reverse_succ, List.foldl_cons]
    by_cases hcase : t < n
    · rw [ih _ t hcase w]
      have hacc2 : (gaeBody γ lam rewards vp masks acc n).2
          = fun w' => (rewards n w' + γ * vp (n + 1) w' * masks n w' - vp n w')
              + γ * lam * masks n w' * acc.2 w' := rfl
      rw [hacc2]
      have hk : t + (n - t) = n := by omega
      have := gaeFuel_shift γ lam rewards vp masks acc.2 (n - t) t w
      rw [hk] at this
      rw [this]
      have hfuel : n + 1 - t = (n - t) + 1 := by omega
      rw [hfuel]
    · have htn : t = n := by omega
      subst htn
      rw [gae_fold_frozen γ lam rewards vp masks t _ t (le_refl t)]
      simp only [gaeBody, Function.update_same]
      have hfuel : t + 1 - t = 1 := by omega
      rw [hfuel]
      simp only [gaeFuel]

/-- **C1.** After the backward loop, for every step `t < t_max` and worker `w`,
`returns[t] = gae(t) + value_predictions[t]` where `gae` is the spec's backward
GAE recursion with `gae(t_max) = 0`; consequently the pre-normalization
advantage `returns[t] - value_predictions[t]` is exactly the GAE value at `t`. -/
theorem returns_follow_gae_recursion (tmax : ℕ) (γ lam : ℚ)
    (rewards vp masks init : ℕ → ℕ → ℚ) (t w : ℕ) (ht : t < tmax) :
    returnsCalc tmax γ lam rewards vp masks init t w
        = gaeSpec tmax γ lam rewards vp masks t w + vp t w
      ∧ returnsCalc tmax γ lam rewards vp masks init t w - vp t w
        = gaeSpec tmax γ lam rewards vp masks t w := by
  have h := gae_fold_invariant γ lam rewards vp masks tmax
    (init, fun _ => 0) t ht w
  constructor
  · rw [returnsCalc, h]; rfl
  · rw [returnsCalc, h]; simp [gaeSpec]

/-- Witness for C1 at a concrete rollout (`t_max = 2`, one worker). -/
theorem returns_follow_gae_recursion_witness :
    (0 : ℕ) < 2
      ∧ (returnsCalc 2 (1/2) (1/3) (fun _ _ => 1) (fun t _ => t) (fun _ _ => 1)
            (fun _ _ => 0) 0 0
          = gaeSpec 2 (1/2) (1/3) (fun _ _ => 1) (fun t _ => t) (fun _ _ => 1) 0 0
            + (fun (t : ℕ) (_ : ℕ) => (t : ℚ)) 0 0
        ∧ returnsCalc 2 (1/2) (1/3) (fun _ _ => 1) (fun t _ => t) (fun _ _ => 1)
            (fun _ _ => 0) 0 0 - (fun (t : ℕ) (_ : ℕ) => (t : ℚ)) 0 0
          = gaeSpec 2 (1/2) (1/3) (fun _ _ => 1) (fun t _ => t) (fun _ _ => 1) 0 0) :=
  ⟨by decide,
   returns_follow_gae_recursion 2 (1/2) (1/3) (fun _ _ => 1) (fun t _ => t)
     (fun _ _ => 1) (fun _ _ => 0) 0 0 (by decide)⟩

lemma sum_all_eq (c : ℚ) : ∀ (l : List ℚ), (∀ a ∈ l, a = c) →
    l.sum = c * l.length := by
  intro l
  induction l with
  | nil => intro _; simp
  | cons a l ih =>
    intro h
    have ha : a = c := h a (List.mem_cons_self a l)
    have : l.sum = c * l.length := ih (fun b hb => h b (List.mem_cons_of_mem a hb))
    simp [ha, this, List.length_cons]
    ring

lemma meanQ_all_eq (c : ℚ) (l : List ℚ) (hne : l ≠ []) (h : ∀ a ∈ l, a = c) :
    meanQ l = c := by
  have hlen : (l.length : ℚ) ≠ 0 := by
    have : l.length ≠ 0 := fun h0 => hne (List.length_eq_zero.mp h0)
    exact_mod_cast this
  rw [meanQ, sum_all_eq c l h, mul_div_assoc, div_self hlen, mul_one]

/-- If all advantages coincide, the unbiased variance is zero. -/
lemma varQ_all_eq (l : List ℚ) (h : ∀ a ∈ l, ∀ b ∈ l, a = b) : varQ l = 0 := by
  rcases l with _ | ⟨a, l'⟩
  · simp [varQ]
  · have hmean : meanQ (a :: l') = a :=
      meanQ_all_eq a _ (List.cons_ne_nil a l')
        (fun b hb => h b hb a (List.mem_cons_self a l'))
    have hz : ((a :: l').map (fun x => (x - meanQ (a :: l')) ^ 2)).sum = 0 := by
      apply List.sum_eq_zero
      intro x hx
      rcases List.mem_map.mp hx with ⟨y, hy, rfl⟩
      have : y = a := h y hy a (List.mem_cons_self a l')
      rw [this, hmean]
      ring
    rw [varQ, hz, zero_div]

/-- If two advantages differ and there are at least two samples, the unbiased
variance is strictly positive. -/
lemma varQ_pos_of_ne (l : List ℚ) (hlen : 2 ≤ l.length)
    (h : ∃ a ∈ l, ∃ b ∈ l, a ≠ b) : 0 < varQ l := by
  rcases h with ⟨a, ha, b, hb, hab⟩
  have hu : ∃ u ∈ l, u ≠ meanQ l := by
    by_cases hm : a = meanQ l
    · exact ⟨b, hb, fun hbm => hab (hm.trans hbm.symm)⟩
    · exact ⟨a, ha, hm⟩
  rcases hu with ⟨u, hul, hum⟩
  have hnonneg : ∀ x ∈ l.map (fun x => (x - meanQ l) ^ 2), (0:ℚ) ≤ x := by
    intro x hx
    rcases List.mem_map.mp hx with ⟨y, _, rfl⟩
    positivity
  have hmem : (u - meanQ l) ^ 2 ∈ l.map (fun x => (x - meanQ l) ^ 2) :=
    List.mem_map_of_mem _ hul
  have hpos : (0:ℚ) < (u - meanQ l) ^ 2 := by
    have : u - meanQ l ≠ 0 := sub_ne_zero_of_ne hum
    positivity
  have hsum : (0:ℚ) < (l.map (fun x => (x - meanQ l) ^ 2)).sum :=
    lt_of_lt_of_le hpos (List.single_le_sum hnonneg _ hmem)
  have hden : (0:ℚ) < (l.length : ℚ) - 1 := by
    have : (2:ℚ) ≤ (l.length : ℚ) := by exact_mod_cast hlen
    linarith
  exact div_pos hsum hden

/-- **C8.** The advantage normalization divides by the raw standard deviation
with no guard: whenever all `n_worker * t_max` advantages coincide (e.g. the
degenerate `t_max = n_worker = 1` rollout) the divisor is zero and every
normalized advantage is undefined, while any two distinct advantages (with at
least two samples) make it well-defined. -/
theorem advantage_normalization_guard (fsqrt : ℚ → ℚ)
    (hs : ∀ x, fsqrt x = 0 ↔ x = 0) (l : List ℚ) :
    ((∀ a ∈ l, ∀ b ∈ l, a = b) → normalizeAdvChecked fsqrt l = none)
      ∧ (2 ≤ l.length → (∃ a ∈ l, ∃ b ∈ l, a ≠ b) →
          normalizeAdvChecked fsqrt l = some (normalizeAdv fsqrt l)) := by
  constructor
  · intro h
    have hv : varQ l = 0 := varQ_all_eq l h
    rw [normalizeAdvChecked, if_pos ((hs (varQ l)).mpr hv)]
  · intro hlen hex
    have hv : varQ l ≠ 0 := ne_of_gt (varQ_pos_of_ne l hlen hex)
    rw [normalizeAdvChecked, if_neg (fun h0 => hv ((hs (varQ l)).mp h0))]

/-- Witness for C8: the all-equal rollout `[1, 1]` is rejected, the rollout
`[0, 1]` is accepted (with `fsqrt` instantiated by a function that is zero
exactly at zero). -/
theorem advantage_normalization_guard_witness :
    (∀ x : ℚ, (id x = 0 ↔ x = 0)) ∧
      ((∀ a ∈ [(1:ℚ), 1], ∀ b ∈ [(1:ℚ), 1], a = b) →
          normalizeAdvChecked id [(1:ℚ), 1] = none)
        ∧ (2 ≤ [(0:ℚ), 1].length → (∃ a ∈ [(0:ℚ), 1], ∃ b ∈ [(0:ℚ), 1], a ≠ b) →
            normalizeAdvChecked id [(0:ℚ), 1] = some (normalizeAdv id [(0:ℚ), 1])) :=
  ⟨fun _ => Iff.rfl,
   ⟨(advantage_normalization_guard id (fun _ => Iff.rfl) [(1:ℚ), 1]).1,
    (advantage_normalization_guard id (fun _ => Iff.rfl) [(0:ℚ), 1]).2⟩⟩

lemma flatView_succ {α : Type} (nw T : ℕ) (x : ℕ → ℕ → α) :
    flatView nw (T + 1) x = flatView nw T x ++ (List.range nw).map (x T) := by
  rw [flatView, List.range_succ, List.flatMap_append, flatView]
  simp

lemma flatView_length {α : Type} (nw T : ℕ) (x : ℕ → ℕ → α) :
    (flatView nw T x).length = T * nw := by
  induction T with
  | zero => simp [flatView]
  | succ T ih =>
    rw [flatView_succ, List.length_append, ih, List.length_map,
      List.length_range, Nat.succ_mul]

/-- Reading a row-major flattened tensor at flat index `i` gives the entry at
slot `i / nw`, worker `i % nw`. -/
lemma flatView_getD {α : Type} (nw T : ℕ) (x : ℕ → ℕ → α) (d : α) (i : ℕ)
    (hi : i < T * nw) :
    (flatView nw T x).getD i d = x (i / nw) (i % nw) := by
  have hnw : 0 < nw := by
    by_contra h
    have h0 : nw = 0 := by omega
    rw [h0, Nat.mul_zero] at hi
    omega
  induction T with
  | zero => omega
  | succ T ih =>
    have hsm : (T + 1) * nw = T * nw + nw := by ring
    rw [flatView_succ]
    by_cases hlt : i < T * nw
    · rw [List.getD_append _ _ _ _ (by rw [flatView_length]; exact hlt)]
      exact ih hlt
    · have hge : T * nw ≤ i := by omega
      rw [List.getD_append_right _ _ _ _ (by rw [flatView_length]; exact hge)]
      rw [flatView_length]
      have hr : i - T * nw < nw := by omega
      have hrlen : i - T * nw < ((List.range nw).map (x T)).length := by
        rw [List.length_map, List.length_range]; exact hr
      rw [List.getD_eq_getElem _ _ hrlen, List.getElem_map, List.getElem_range]
      have heq : i = nw * T + (i - T * nw) := by
        have hc : nw * T = T * nw := Nat.mul_comm nw T
        omega
      have hdiv : i / nw = T := by
        calc i / nw = (nw * T + (i - T * nw)) / nw := by rw [← heq]
          _ = T + (i - T * nw) / nw := Nat.mul_add_div hnw T (i - T * nw)
          _ = T := by rw [Nat.div_eq_of_lt hr, Nat.add_zero]
      have hmod : i % nw = i - T * nw := by
        calc i % nw = (nw * T + (i - T * nw)) % nw := by rw [← heq]
          _ = (i - T * nw) % nw := Nat.mul_add_mod nw T (i - T * nw)
          _ = i - T * nw := Nat.mod_eq_of_lt hr
      rw [hdiv, hmod]

lemma zipWith_map_same {α β γ δ : Type} (h : β → γ → δ) (f : α → β)
    (g : α → γ) (l : List α) :
    List.zipWith h (l.map f) (l.map g) = l.map (fun x => h (f x) (g x)) := by
  induction l with
  | nil => rfl
  | cons a l ih => simp [ih]

/-- **C2.** The policy loss of every minibatch is the negated minibatch mean of
`min(ratio * A, clamp(ratio, 1-ε, 1+ε) * A)`, where for each sampled index the
ratio is `exp(current log-prob − stored log-prob)` and `A` is the advantage of
that same sample. -/
theorem policy_loss_is_clipped_surrogate (M : PPOModel θ μ P)
    (F : FloatOps P) (w : θ) (eps : ℚ) (obsFlat : List (μ → ℚ))
    (actFlat : List ℤ) (retFlat oldlpFlat advFlat : List ℚ)
    (indices : List ℕ) :
    (minibatchLosses M F w eps obsFlat actFlat retFlat oldlpFlat advFlat
        indices).1
      = -meanQ (indices.map (fun i =>
          min (F.fexp (F.logSoftmaxAt
                  (M.forward w (obsFlat.getD i (fun _ => 0))).1
                  (actFlat.getD i 0) - oldlpFlat.getD i 0)
                * advFlat.getD i 0)
              (clampQ (F.fexp (F.logSoftmaxAt
                  (M.forward w (obsFlat.getD i (fun _ => 0))).1
                  (actFlat.getD i 0) - oldlpFlat.getD i 0))
                  (1 - eps) (1 + eps)
                * advFlat.getD i 0))) := by
  simp only [minibatchLosses, List.map_map, zipWith_map_same, Function.comp]

lemma chunksFuel_flatten {α : Type} (k : ℕ) (hk : 0 < k) :
    ∀ (fuel : ℕ) (l : List α), l.length ≤ fuel →
      (chunksFuel k fuel l).flatten = l := by
  intro fuel
  induction fuel with
  | zero =>
    intro l hl
    have : l = [] := List.length_eq_zero.mp (by omega)
    subst this; rfl
  | succ fuel ih =>
    intro l hl
    match l with
    | [] => rfl
    | x :: xs =>
      rw [chunksFuel]
      rw [List.flatten_cons]
      rw [ih ((x :: xs).drop k) (by rw [List.length_drop]; simp at hl ⊢; omega)]
      exact List.take_append_drop k (x :: xs)

lemma chunksFuel_sizes {α : Type} (k : ℕ) (hk : 0 < k) :
    ∀ (fuel : ℕ) (l : List α), l.length ≤ fuel →
      ∀ c ∈ chunksFuel k fuel l, c ≠ [] ∧ c.length ≤ k := by
  intro fuel
  induction fuel with
  | zero => intro l _ c hc; simp [chunksFuel] at hc
  | succ fuel ih =>
    intro l hl c hc
    match l with
    | [] => simp [chunksFuel] at hc
    | x :: xs =>
      rw [chunksFuel] at hc
      rcases List.mem_cons.mp hc with h | h
      · subst h
        constructor
        · have : 0 < ((x :: xs).take k).length := by
            rw [List.length_take]
            simp [Nat.lt_min, hk]
          exact List.ne_nil_of_length_pos this
        · rw [List.length_take]; omega
      · exact ih ((x :: xs).drop k)
          (by rw [List.length_drop]; simp at hl ⊢; omega) c h

lemma chunksFuel_nil_iff {α : Type} (k : ℕ) :
    ∀ (fuel : ℕ) (l : List α), l.length ≤ fuel →
      (chunksFuel k fuel l = [] ↔ l = []) := by
  intro fuel
  induction fuel with
  | zero =>
    intro l hl
    have : l = [] := List.length_eq_zero.mp (by omega)
    subst this; simp [chunksFuel]
  | succ fuel _ =>
    intro l _
    match l with
    | [] => simp [chunksFuel]
    | x :: xs => simp [chunksFuel]

/-- Every minibatch except possibly the last has exactly `k` elements. -/
lemma chunksFuel_full_sizes {α : Type} (k : ℕ) (hk : 0 < k) :
    ∀ (fuel : ℕ) (l : List α), l.length ≤ fuel →
      ∀ j, j + 1 < (chunksFuel k fuel l).length →
        ((chunksFuel k fuel l).getD j []).length = k := by
  intro fuel
  induction fuel with
  | zero => intro l _ j hj; simp [chunksFuel] at hj
  | succ fuel ih =>
    intro l hl j hj
    match l with
    | [] => simp [chunksFuel] at hj
    | x :: xs =>
      rw [chunksFuel] at hj ⊢
      match j with
      | 0 =>
        have hrest : chunksFuel k fuel ((x :: xs).drop k) ≠ [] := by
          intro h0
          rw [List.length_cons] at hj
          simp [h0] at hj
        have hdrop : (x :: xs).drop k ≠ [] := by
          intro h0
          exact hrest (((chunksFuel_nil_iff k fuel ((x :: xs).drop k))
            (by rw [List.length_drop]; simp at hl ⊢; omega)).mpr h0)
        have hklen : k < (x :: xs).length := by
          by_contra hge
          exact hdrop (List.drop_eq_nil_of_le (by omega))
        simp only [List.getD_cons_zero, List.length_take]
        omega
      | j + 1 =>
        simp only [List.getD_cons_succ]
        exact ih ((x :: xs).drop k)
          (by rw [List.length_drop]; simp at hl ⊢; omega) j
          (by simpa using hj)

/-- Each minibatch of the inner loop appends exactly one update call. -/
lemma foldl_epochBody_length (M : PPOModel θ μ P) (F : FloatOps P) (eps : ℚ)
    (obsFlat : List (μ → ℚ)) (actFlat : List ℤ)
    (retFlat oldlpFlat advFlat : List ℚ) :
    ∀ (cs : List (List ℕ)) (acc : θ × List (ℚ × ℚ × ℚ)),
      ((cs.foldl (epochBody M F eps obsFlat actFlat retFlat oldlpFlat advFlat)
          acc).2).length
        = acc.2.length + cs.length := by
  intro cs
  induction cs with
  | nil => intro acc; rfl
  | cons c cs ih =>
    intro acc
    rw [List.foldl_cons, ih]
    simp only [epochBody, List.length_append, List.length_cons, List.length_nil]
    omega

/-- Every update call of the double loop is the loss triple of some sampled
minibatch computed at some intermediate network state. -/
lemma foldl_epochBody_mem (M : PPOModel θ μ P) (F : FloatOps P) (eps : ℚ)
    (obsFlat : List (μ → ℚ)) (actFlat : List ℤ)
    (retFlat oldlpFlat advFlat : List ℚ) :
    ∀ (cs : List (List ℕ)) (acc : θ × List (ℚ × ℚ × ℚ)),
      ∀ trip ∈ (cs.foldl
          (epochBody M F eps obsFlat actFlat retFlat oldlpFlat advFlat) acc).2,
        trip ∈ acc.2 ∨ ∃ w' idxs, idxs ∈ cs
          ∧ trip = minibatchLosses M F w' eps obsFlat actFlat retFlat
              oldlpFlat advFlat idxs := by
  intro cs
  induction cs with
  | nil => intro acc trip htrip; exact Or.inl htrip
  | cons c cs ih =>
    intro acc trip htrip
    rw [List.foldl_cons] at htrip
    rcases ih _ trip htrip with hmem | ⟨w', idxs, hidxs, heq⟩
    · simp only [epochBody, List.mem_append, List.mem_singleton] at hmem
      rcases hmem with h | h
      · exact Or.inl h
      · exact Or.inr ⟨acc.1, c, List.mem_cons_self c cs, h⟩
    · exact Or.inr ⟨w', idxs, List.mem_cons_of_mem c hidxs, heq⟩

lemma epochsLoop_length (M : PPOModel θ μ P) (F : FloatOps P) (eps : ℚ)
    (k : ℕ) (perms : ℕ → List ℕ) (obsFlat : List (μ → ℚ)) (actFlat : List ℤ)
    (retFlat oldlpFlat advFlat : List ℚ) :
    ∀ (eplist : List ℕ) (acc : θ × List (ℚ × ℚ × ℚ)),
      ((eplist.foldl (fun acc' ep => (batchChunks k (perms ep)).foldl
          (epochBody M F eps obsFlat actFlat retFlat oldlpFlat advFlat) acc')
          acc).2).length
        = acc.2.length
          + (eplist.map (fun ep => (batchChunks k (perms ep)).length)).sum := by
  intro eplist
  induction eplist with
  | nil => intro acc; simp
  | cons e eplist ih =>
    intro acc
    rw [List.foldl_cons, ih,
      foldl_epochBody_length M F eps obsFlat actFlat retFlat oldlpFlat advFlat]
    simp [Nat.add_assoc]

lemma epochsLoop_mem (M : PPOModel θ μ P) (F : FloatOps P) (eps : ℚ)
    (k : ℕ) (perms : ℕ → List ℕ) (obsFlat : List (μ → ℚ)) (actFlat : List ℤ)
    (retFlat oldlpFlat advFlat : List ℚ) :
    ∀ (eplist : List ℕ) (acc : θ × List (ℚ × ℚ × ℚ)),
      ∀ trip ∈ (eplist.foldl (fun acc' ep => (batchChunks k (perms ep)).foldl
          (epochBody M F eps obsFlat actFlat retFlat oldlpFlat advFlat) acc')
          acc).2,
        trip ∈ acc.2 ∨ ∃ w' ep idxs, ep ∈ eplist
          ∧ idxs ∈ batchChunks k (perms ep)
          ∧ trip = minibatchLosses M F w' eps obsFlat actFlat retFlat
              oldlpFlat advFlat idxs := by
  intro eplist
  induction eplist with
  | nil => intro acc trip htrip; exact Or.inl htrip
  | cons e eplist ih =>
    intro acc trip htrip
    rw [List.foldl_cons] at htrip
    rcases ih _ trip htrip with hmem | ⟨w', ep, idxs, hep, hidxs, heq⟩
    · rcases foldl_epochBody_mem M F eps obsFlat actFlat retFlat oldlpFlat
        advFlat _ _ trip hmem with h | ⟨w', idxs, hidxs, heq⟩
      · exact Or.inl h
      · exact Or.inr ⟨w', e, idxs, List.mem_cons_self e eplist, hidxs, heq⟩
    · exact Or.inr ⟨w', ep, idxs, List.mem_cons_of_mem e hep, hidxs, heq⟩

/-- **C3.** With the `ppo_epoch` epochs drawing permutations of
`range(n_worker * t_max)` and minibatch size `batch_size * n_worker`: the
double loop performs one `model.update` call per minibatch of each of the
`ppo_epoch` epochs; within an epoch the minibatches concatenate back to the
epoch's permutation, so every rollout sample index appears in the epoch's
minibatches exactly once; every minibatch is nonempty of size at most
`batch_size * n_worker`, and all but the last have exactly that size. -/
theorem ppo_epochs_partition_minibatches (M : PPOModel θ μ P) (F : FloatOps P)
    (eps : ℚ) (nw tmax bs ppoEpoch : ℕ) (perms : ℕ → List ℕ)
    (obsFlat : List (μ → ℚ)) (actFlat : List ℤ)
    (retFlat oldlpFlat advFlat : List ℚ) (w0 : θ)
    (hk : 0 < bs * nw) (hperms : ∀ ep, (perms ep).Perm (List.range (nw * tmax))) :
    ((epochsLoop M F eps ppoEpoch (bs * nw) perms obsFlat actFlat retFlat
          oldlpFlat advFlat w0).2.length
        = ((List.range ppoEpoch).map
            (fun ep => (batchChunks (bs * nw) (perms ep)).length)).sum)
      ∧ (∀ ep, (batchChunks (bs * nw) (perms ep)).flatten = perms ep)
      ∧ (∀ ep, ∀ i < nw * tmax,
          ((batchChunks (bs * nw) (perms ep)).flatten).count i = 1)
      ∧ (∀ ep, ∀ c ∈ batchChunks (bs * nw) (perms ep),
          c ≠ [] ∧ c.length ≤ bs * nw)
      ∧ (∀ ep j, j + 1 < (batchChunks (bs * nw) (perms ep)).length →
          ((batchChunks (bs * nw) (perms ep)).getD j []).length = bs * nw) := by
  have hflat : ∀ ep, (batchChunks (bs * nw) (perms ep)).flatten = perms ep :=
    fun ep => chunksFuel_flatten (bs * nw) hk (perms ep).length (perms ep)
      (le_refl _)
  refine ⟨?_, hflat, ?_, ?_, ?_⟩
  · rw [epochsLoop, epochsLoop_length]
    simp
  · intro ep i hi
    rw [hflat ep, (hperms ep).count_eq]
    exact List.count_eq_one_of_mem (List.nodup_range _) (List.mem_range.mpr hi)
  · intro ep c hc
    exact chunksFuel_sizes (bs * nw) hk (perms ep).length (perms ep)
      (le_refl _) c hc
  · intro ep j hj
    exact chunksFuel_full_sizes (bs * nw) hk (perms ep).length (perms ep)
      (le_refl _) j hj

/-- Witness for C3 with one epoch, two samples, minibatch size 1. -/
theorem ppo_epochs_partition_minibatches_witness :
    ((0:ℕ) < 1 * 1 ∧ ∀ ep : ℕ, ([1, 0] : List ℕ).Perm (List.range (1 * 2)))
      ∧ (((@epochsLoop Unit Unit Unit
            ⟨fun _ _ => ((), 0), fun _ _ => 0, fun _ _ => (), fun _ => 0⟩
            ⟨id, id, fun _ _ => 0, fun _ => 0⟩ 0 1 (1 * 1) (fun _ => [1, 0])
            [] [] [] [] [] ()).2.length
          = ((List.range 1).map
              (fun ep => (batchChunks (1 * 1) ((fun _ => ([1, 0] : List ℕ)) ep)).length)).sum)
        ∧ (∀ ep : ℕ, (batchChunks (1 * 1) ((fun _ => ([1, 0] : List ℕ)) ep)).flatten
            = (fun _ => ([1, 0] : List ℕ)) ep)
        ∧ (∀ ep : ℕ, ∀ i < 1 * 2,
            ((batchChunks (1 * 1) ((fun _ => ([1, 0] : List ℕ)) ep)).flatten).count i = 1)
        ∧ (∀ ep : ℕ, ∀ c ∈ batchChunks (1 * 1) ((fun _ => ([1, 0] : List ℕ)) ep),
            c ≠ [] ∧ c.length ≤ 1 * 1)
        ∧ (∀ ep j : ℕ, j + 1 < (batchChunks (1 * 1) ((fun _ => ([1, 0] : List ℕ)) ep)).length →
            ((batchChunks (1 * 1) ((fun _ => ([1, 0] : List ℕ)) ep)).getD j []).length
              = 1 * 1)) :=
  ⟨⟨by decide, fun _ => by decide⟩,
   ppo_epochs_partition_minibatches
     ⟨fun _ _ => ((), 0), fun _ _ => 0, fun _ _ => (), fun _ => 0⟩
     ⟨id, id, fun _ _ => 0, fun _ => 0⟩ 0 1 2 1 1 (fun _ => [1, 0])
     [] [] [] [] [] () (by decide)
     (fun _ => (by decide : ([1, 0] : List ℕ).Perm (List.range (1 * 2))))⟩

/-- **C5.** The value loss of every minibatch is the mean squared error
between the stored returns and the network's current value predictions at the
sampled indices, and every `model.update` call of the double loop receives a
full `(action_loss, value_loss, dist_entropy)` triple of this shape. -/
theorem value_loss_is_mse (M : PPOModel θ μ P)
    (F : FloatOps P) (w : θ) (eps : ℚ) (ppoEpoch k : ℕ) (perms : ℕ → List ℕ)
    (obsFlat : List (μ → ℚ)) (actFlat : List ℤ)
    (retFlat oldlpFlat advFlat : List ℚ) (indices : List ℕ) :
    ((minibatchLosses M F w eps obsFlat actFlat retFlat oldlpFlat advFlat
        indices).2.1
      = meanQ (indices.map (fun i =>
          (retFlat.getD i 0
            - (M.forward w (obsFlat.getD i (fun _ => 0))).2) ^ 2)))
    ∧ (∀ trip ∈ (epochsLoop M F eps ppoEpoch k perms obsFlat actFlat retFlat
          oldlpFlat advFlat w).2,
        ∃ w' idxs, trip = minibatchLosses M F w' eps obsFlat actFlat retFlat
            oldlpFlat advFlat idxs
          ∧ trip.2.1 = meanQ (idxs.map (fun i =>
              (retFlat.getD i 0
                - (M.forward w' (obsFlat.getD i (fun _ => 0))).2) ^ 2))) := by
  have hmse : ∀ (w' : θ) (idxs : List ℕ),
      (minibatchLosses M F w' eps obsFlat actFlat retFlat oldlpFlat advFlat
          idxs).2.1
        = meanQ (idxs.map (fun i =>
            (retFlat.getD i 0
              - (M.forward w' (obsFlat.getD i (fun _ => 0))).2) ^ 2)) := by
    intro w' idxs
    simp only [minibatchLosses, List.map_map, zipWith_map_same, Function.comp]
  refine ⟨hmse w indices, ?_⟩
  intro trip htrip
  rcases epochsLoop_mem M F eps k perms obsFlat actFlat retFlat oldlpFlat
      advFlat (List.range ppoEpoch) (w, []) trip htrip
    with hmem | ⟨w', _, idxs, _, _, heq⟩
  · simp at hmem
  · exact ⟨w', idxs, heq, by rw [heq]; exact hmse w' idxs⟩

/-- **C9.** For every flat index `i` produced by the sampler (a member of a
permutation of `range(n_worker * t_max)`), the flattened observations,
actions, returns, old log-probs and normalized advantages all read the entry
of step `i / n_worker`, worker `i % n_worker`; although `old_log_probs` is
flattened over `t_max + 1` slots without slicing, the step index `i / n_worker`
stays below `t_max`, so the unused final slot is never read. -/
theorem minibatch_alignment (nw tmax : ℕ) (perm : List ℕ) (i : ℕ)
    (hperm : perm.Perm (List.range (nw * tmax))) (hi : i ∈ perm)
    (obs : ℕ → ℕ → μ → ℚ) (acts : ℕ → ℕ → ℤ) (rets oldlp adv : ℕ → ℕ → ℚ)
    (fsqrt : ℚ → ℚ) :
    (flatView nw tmax obs).getD i (fun _ => 0) = obs (i / nw) (i % nw)
      ∧ (flatView nw tmax acts).getD i 0 = acts (i / nw) (i % nw)
      ∧ (flatView nw tmax rets).getD i 0 = rets (i / nw) (i % nw)
      ∧ (flatView nw (tmax + 1) oldlp).getD i 0 = oldlp (i / nw) (i % nw)
      ∧ (normalizeAdv fsqrt (flatView nw tmax adv)).getD i 0
          = (adv (i / nw) (i % nw) - meanQ (flatView nw tmax adv))
            / fsqrt (varQ (flatView nw tmax adv))
      ∧ i / nw < tmax ∧ i % nw < nw := by
  have hilt : i < nw * tmax := List.mem_range.mp (hperm.mem_iff.mp hi)
  have hilt' : i < tmax * nw := by rw [Nat.mul_comm] at hilt; exact hilt
  have hnw : 0 < nw := by
    by_contra h
    have h0 : nw = 0 := by omega
    rw [h0, Nat.zero_mul] at hilt
    omega
  have hilt'' : i < (tmax + 1) * nw := by
    have : tmax * nw ≤ (tmax + 1) * nw := Nat.mul_le_mul_right nw (by omega)
    omega
  have hdivlt : i / nw < tmax := (Nat.div_lt_iff_lt_mul hnw).mpr hilt'
  refine ⟨flatView_getD nw tmax obs _ i hilt',
    flatView_getD nw tmax acts _ i hilt',
    flatView_getD nw tmax rets _ i hilt',
    flatView_getD nw (tmax + 1) oldlp _ i hilt'',
    ?_, hdivlt, Nat.mod_lt i hnw⟩
  have hlen : i < (flatView nw tmax adv).length := by
    rw [flatView_length]; exact hilt'
  have hlen' : i < (List.map
      (fun a => (a - meanQ (flatView nw tmax adv)) / fsqrt (varQ (flatView nw tmax adv)))
      (flatView nw tmax adv)).length := by
    rw [List.length_map]; exact hlen
  rw [normalizeAdv]
  rw [List.getD_eq_getElem _ _ hlen', List.getElem_map]
  rw [← List.getD_eq_getElem _ 0 hlen]
  rw [flatView_getD nw tmax adv _ i hilt']

/-- Witness for C9 with one worker, two steps, `i = 1`. -/
theorem minibatch_alignment_witness :
    (([1, 0] : List ℕ).Perm (List.range (1 * 2)) ∧ (1 : ℕ) ∈ ([1, 0] : List ℕ))
      ∧ ((@flatView (Unit → ℚ) 1 2 (fun t _ _ => (t : ℚ))).getD 1 (fun _ => 0)
            = (fun (t : ℕ) (_ : ℕ) (_ : Unit) => (t : ℚ)) (1 / 1) (1 % 1)
        ∧ (flatView 1 2 (fun t _ => (t : ℤ))).getD 1 0
            = (fun (t : ℕ) (_ : ℕ) => (t : ℤ)) (1 / 1) (1 % 1)
        ∧ (flatView 1 2 (fun t _ => (t : ℚ))).getD 1 0
            = (fun (t : ℕ) (_ : ℕ) => (t : ℚ)) (1 / 1) (1 % 1)
        ∧ (flatView 1 (2 + 1) (fun t _ => (t : ℚ))).getD 1 0
            = (fun (t : ℕ) (_ : ℕ) => (t : ℚ)) (1 / 1) (1 % 1)
        ∧ (normalizeAdv id (flatView 1 2 (fun t _ => (t : ℚ)))).getD 1 0
            = ((fun (t : ℕ) (_ : ℕ) => (t : ℚ)) (1 / 1) (1 % 1)
                - meanQ (flatView 1 2 (fun t _ => (t : ℚ))))
              / id (varQ (flatView 1 2 (fun t _ => (t : ℚ))))
        ∧ 1 / 1 < 2 ∧ 1 % 1 < 1) :=
  by
  refine ⟨⟨by decide, by decide⟩, ?_⟩
  exact minibatch_alignment 1 2 [1, 0] 1 (by decide) (by decide)
    (fun t _ _ => (t : ℚ)) (fun t _ => (t : ℤ)) (fun t _ => (t : ℚ))
    (fun t _ => (t : ℚ)) (fun t _ => (t : ℚ)) id

/-- The source rollout loop is `rolloutN` and emits exactly one `env.step`
event per rollout step, in step order. -/
lemma rolloutLoopEv_spec (E : EnvOps μ EnvS) (M : PPOModel θ μ P)
    (F : FloatOps P) (sampleA : ℕ → ℕ → (ℕ → P) → ℕ → ℤ) (w : θ) (it : ℕ) :
    ∀ (tmax : ℕ) (s : RState μ EnvS),
      rolloutLoopEv E M F sampleA w it tmax s
        = (rolloutN E M F sampleA w it tmax s,
           (List.range tmax).map (TrainEvent.envStepCall it)) := by
  intro tmax
  induction tmax with
  | zero => intro s; rfl
  | succ n ih =>
    intro s
    have hfold : rolloutLoopEv E M F sampleA w it (n + 1) s
        = (List.range (n + 1)).foldl
          (fun acc step =>
            (rolloutStep E M F sampleA w it step acc.1,
              acc.2 ++ [TrainEvent.envStepCall it step]))
          (s, []) := rfl
    rw [hfold, List.range_succ, List.foldl_append]
    have hbase : (List.range n).foldl
        (fun acc step =>
          (rolloutStep E M F sampleA w it step acc.1,
            acc.2 ++ [TrainEvent.envStepCall it step]))
        (s, []) = rolloutLoopEv E M F sampleA w it n s := rfl
    rw [hbase, ih s]
    simp [rolloutN, List.range_succ]

/-- Rollout steps after step `t` never overwrite the tensor slots written at
step `t` (observations go to slot `t + 1`, the rest to slot `t`). -/
lemma rolloutN_stable (E : EnvOps μ EnvS) (M : PPOModel θ μ P)
    (F : FloatOps P) (sampleA : ℕ → ℕ → (ℕ → P) → ℕ → ℤ) (w : θ) (it : ℕ)
    (s : RState μ EnvS) :
    ∀ (n t : ℕ), t < n →
      (rolloutN E M F sampleA w it n s).observations (t + 1)
          = (rolloutN E M F sampleA w it (t + 1) s).observations (t + 1)
        ∧ (rolloutN E M F sampleA w it n s).valuePredictions t
          = (rolloutN E M F sampleA w it (t + 1) s).valuePredictions t
        ∧ (rolloutN E M F sampleA w it n s).oldLogProbs t
          = (rolloutN E M F sampleA w it (t + 1) s).oldLogProbs t
        ∧ (rolloutN E M F sampleA w it n s).rewards t
          = (rolloutN E M F sampleA w it (t + 1) s).rewards t
        ∧ (rolloutN E M F sampleA w it n s).masks t
          = (rolloutN E M F sampleA w it (t + 1) s).masks t
        ∧ (rolloutN E M F sampleA w it n s).actions t
          = (rolloutN E M F sampleA w it (t + 1) s).actions t := by
  intro n
  induction n with
  | zero => intro t ht; omega
  | succ n ih =>
    intro t ht
    by_cases hc : t < n
    · obtain ⟨h1, h2, h3, h4, h5, h6⟩ := ih t hc
      refine ⟨?_, ?_, ?_, ?_, ?_, ?_⟩
      · show (rolloutStep E M F sampleA w it n
            (rolloutN E M F sampleA w it n s)).observations (t + 1) = _
        simp only [rolloutStep]
        rw [Function.update_noteq (by omega)]
        exact h1
      · show (rolloutStep E M F sampleA w it n
            (rolloutN E M F sampleA w it n s)).valuePredictions t = _
        simp only [rolloutStep]
        rw [Function.update_noteq (by omega)]
        exact h2
      · show (rolloutStep E M F sampleA w it n
            (rolloutN E M F sampleA w it n s)).oldLogProbs t = _
        simp only [rolloutStep]
        rw [Function.update_noteq (by omega)]
        exact h3
      · show (rolloutStep E M F sampleA w it n
            (rolloutN E M F sampleA w it n s)).rewards t = _
        simp only [rolloutStep]
        rw [Function.update_noteq (by omega)]
        exact h4
      · show (rolloutStep E M F sampleA w it n
            (rolloutN E M F sampleA w it n s)).masks t = _
        simp only [rolloutStep]
        rw [Function.update_noteq (by omega)]
        exact h5
      · show (rolloutStep E M F sampleA w it n
            (rolloutN E M F sampleA w it n s)).actions t = _
        simp only [rolloutStep]
        rw [Function.update_noteq (by omega)]
        exact h6
    · have heq : t = n := by omega
      subst heq
      exact ⟨rfl, rfl, rfl, rfl, rfl, rfl⟩

/-- What one rollout step stores into its slots. -/
lemma rolloutStep_writes (E : EnvOps μ EnvS) (M : PPOModel θ μ P)
    (F : FloatOps P) (sampleA : ℕ → ℕ → (ℕ → P) → ℕ → ℤ) (w : θ) (it t : ℕ)
    (pre : RState μ EnvS) :
    (rolloutStep E M F sampleA w it t pre).actions t
        = sampleA it t (stepHeads M w pre t)
      ∧ (rolloutStep E M F sampleA w it t pre).valuePredictions t
        = stepVals M w pre t
      ∧ (rolloutStep E M F sampleA w it t pre).oldLogProbs t
        = (fun j => F.logSoftmaxAt (stepHeads M w pre t j)
            (sampleA it t (stepHeads M w pre t) j))
      ∧ (rolloutStep E M F sampleA w it t pre).rewards t
        = (stepOut E M sampleA w it t pre).2.2.1
      ∧ (rolloutStep E M F sampleA w it t pre).masks t
        = (fun j => if (stepOut E M sampleA w it t pre).2.2.2 j then 0 else 1)
      ∧ (rolloutStep E M F sampleA w it t pre).observations (t + 1)
        = (fun j x => (stepOut E M sampleA w it t pre).2.1 j x
            * (if (stepOut E M sampleA w it t pre).2.2.2 j then 0 else 1)) := by
  refine ⟨?_, ?_, ?_, ?_, ?_, ?_⟩ <;>
    simp [rolloutStep, stepOut, Function.update_same]

/-- **C10.** For every rollout step and worker: if the worker's done flag is
set, the observation stored into slot `step + 1` is all zeros (the returned
state times the 0 mask); if it is unset, the returned state is stored
unchanged. -/
theorem done_mask_zeroes_next_observation (E : EnvOps μ EnvS)
    (M : PPOModel θ μ P) (F : FloatOps P)
    (sampleA : ℕ → ℕ → (ℕ → P) → ℕ → ℤ) (w : θ) (it n t : ℕ)
    (s : RState μ EnvS) (ht : t < n) (j : ℕ) :
    ((stepOut E M sampleA w it t (rolloutN E M F sampleA w it t s)).2.2.2 j
        = true →
      ∀ x, (rolloutN E M F sampleA w it n s).observations (t + 1) j x = 0)
    ∧ ((stepOut E M sampleA w it t (rolloutN E M F sampleA w it t s)).2.2.2 j
        = false →
      ∀ x, (rolloutN E M F sampleA w it n s).observations (t + 1) j x
        = (stepOut E M sampleA w it t (rolloutN E M F sampleA w it t s)).2.1 j x) := by
  have hstab := (rolloutN_stable E M F sampleA w it s n t ht).1
  have hwr := (rolloutStep_writes E M F sampleA w it t
    (rolloutN E M F sampleA w it t s)).2.2.2.2.2
  have hobs : (rolloutN E M F sampleA w it n s).observations (t + 1)
      = (fun j' x => (stepOut E M sampleA w it t
            (rolloutN E M F sampleA w it t s)).2.1 j' x
          * (if (stepOut E M sampleA w it t
              (rolloutN E M F sampleA w it t s)).2.2.2 j' then 0 else 1)) := by
    rw [hstab]
    exact hwr
  constructor
  · intro hd x
    rw [hobs]
    simp [hd]
  · intro hd x
    rw [hobs]
    simp [hd]

/-- Witness for C10 (one step, one worker, an environment whose done flag is
always set). -/
theorem done_mask_zeroes_next_observation_witness :
    (0 : ℕ) < 1
      ∧ (((stepOut unitEnv unitModel zeroSampler () 0 0
            (rolloutN unitEnv unitModel unitFloats zeroSampler () 0 0
              zeroRState)).2.2.2 0 = true →
          ∀ x, (rolloutN unitEnv unitModel unitFloats zeroSampler () 0 1
              zeroRState).observations (0 + 1) 0 x = 0)
        ∧ ((stepOut unitEnv unitModel zeroSampler () 0 0
            (rolloutN unitEnv unitModel unitFloats zeroSampler () 0 0
              zeroRState)).2.2.2 0 = false →
          ∀ x, (rolloutN unitEnv unitModel unitFloats zeroSampler () 0 1
              zeroRState).observations (0 + 1) 0 x
            = (stepOut unitEnv unitModel zeroSampler () 0 0
                (rolloutN unitEnv unitModel unitFloats zeroSampler () 0 0
                  zeroRState)).2.1 0 x)) :=
  ⟨by decide,
   done_mask_zeroes_next_observation unitEnv unitModel unitFloats zeroSampler
     () 0 1 0 zeroRState (by decide) 0⟩

/-- **C4.** Each update iteration performs exactly `t_max` `env.step` calls —
one per rollout step, in step order, all before any `model.update` call of
the iteration — and stores, for each step `t < t_max`, the sampled actions,
chosen-action log-probabilities, value predictions, rewards, done masks, and
the masked next observations into the multi-worker multi-step tensors. -/
theorem rollout_collects_before_updates (E : EnvOps μ EnvS)
    (M : PPOModel θ μ P) (F : FloatOps P)
    (sampleA : ℕ → ℕ → (ℕ → P) → ℕ → ℤ) (cfg : PPOConfig)
    (perms : ℕ → ℕ → List ℕ) (it : ℕ) (w : θ) (s : RState μ EnvS)
    (t : ℕ) (ht : t < cfg.tMax) :
    (∃ upds, (trainIteration E M F sampleA cfg perms it w s).2.2
        = (List.range cfg.tMax).map (TrainEvent.envStepCall it) ++ upds
      ∧ ∀ e ∈ upds, ∃ L, e = TrainEvent.modelUpdateCall it L)
    ∧ (trainIteration E M F sampleA cfg perms it w s).2.1.actions t
        = sampleA it t (stepHeads M w (rolloutN E M F sampleA w it t s) t)
    ∧ (trainIteration E M F sampleA cfg perms it w s).2.1.valuePredictions t
        = stepVals M w (rolloutN E M F sampleA w it t s) t
    ∧ (trainIteration E M F sampleA cfg perms it w s).2.1.oldLogProbs t
        = (fun j => F.logSoftmaxAt
            (stepHeads M w (rolloutN E M F sampleA w it t s) t j)
            (sampleA it t (stepHeads M w (rolloutN E M F sampleA w it t s) t) j))
    ∧ (trainIteration E M F sampleA cfg perms it w s).2.1.rewards t
        = (stepOut E M sampleA w it t (rolloutN E M F sampleA w it t s)).2.2.1
    ∧ (trainIteration E M F sampleA cfg perms it w s).2.1.masks t
        = (fun j => if (stepOut E M sampleA w it t
            (rolloutN E M F sampleA w it t s)).2.2.2 j then 0 else 1)
    ∧ (∀ j x, (trainIteration E M F sampleA cfg perms it w s).2.1.observations
          (t + 1) j x
        = (stepOut E M sampleA w it t (rolloutN E M F sampleA w it t s)).2.1 j x
          * (if (stepOut E M sampleA w it t
              (rolloutN E M F sampleA w it t s)).2.2.2 j then 0 else 1)) := by
  have hro := rolloutLoopEv_spec E M F sampleA w it cfg.tMax s
  have hstab := rolloutN_stable E M F sampleA w it s cfg.tMax t ht
  have hwr := rolloutStep_writes E M F sampleA w it t
    (rolloutN E M F sampleA w it t s)
  have hact : (trainIteration E M F sampleA cfg perms it w s).2.1.actions
      = (rolloutN E M F sampleA w it cfg.tMax s).actions := by
    show (rolloutLoopEv E M F sampleA w it cfg.tMax s).1.actions = _
    rw [hro]
  have holdlp : (trainIteration E M F sampleA cfg perms it w s).2.1.oldLogProbs
      = (rolloutN E M F sampleA w it cfg.tMax s).oldLogProbs := by
    show (rolloutLoopEv E M F sampleA w it cfg.tMax s).1.oldLogProbs = _
    rw [hro]
  have hrew : (trainIteration E M F sampleA cfg perms it w s).2.1.rewards
      = (rolloutN E M F sampleA w it cfg.tMax s).rewards := by
    show (rolloutLoopEv E M F sampleA w it cfg.tMax s).1.rewards = _
    rw [hro]
  have hmask : (trainIteration E M F sampleA cfg perms it w s).2.1.masks
      = (rolloutN E M F sampleA w it cfg.tMax s).masks := by
    show (rolloutLoopEv E M F sampleA w it cfg.tMax s).1.masks = _
    rw [hro]
  have hvp : (trainIteration E M F sampleA cfg perms it w s).2.1.valuePredictions t
      = (rolloutN E M F sampleA w it cfg.tMax s).valuePredictions t := by
    have h1 : (trainIteration E M F sampleA cfg perms it w s).2.1.valuePredictions t
        = (rolloutLoopEv E M F sampleA w it cfg.tMax s).1.valuePredictions t :=
      Function.update_noteq (show t ≠ cfg.tMax from by omega) _ _
    rw [h1, hro]
  have hobs : (trainIteration E M F sampleA cfg perms it w s).2.1.observations (t + 1)
      = (rolloutN E M F sampleA w it cfg.tMax s).observations (t + 1) := by
    have h1 : (trainIteration E M F sampleA cfg perms it w s).2.1.observations (t + 1)
        = (rolloutLoopEv E M F sampleA w it cfg.tMax s).1.observations (t + 1) := by
      show Function.update
          (rolloutLoopEv E M F sampleA w it cfg.tMax s).1.observations 0
          ((rolloutLoopEv E M F sampleA w it cfg.tMax s).1.observations cfg.tMax)
          (t + 1)
        = (rolloutLoopEv E M F sampleA w it cfg.tMax s).1.observations (t + 1)
      exact Function.update_noteq (by omega) _ _
    rw [h1, hro]
  refine ⟨?_, ?_, ?_, ?_, ?_, ?_, ?_⟩
  · obtain ⟨calls, hcalls⟩ :
        ∃ calls : List (ℚ × ℚ × ℚ),
          (trainIteration E M F sampleA cfg perms it w s).2.2
            = (rolloutLoopEv E M F sampleA w it cfg.tMax s).2
              ++ calls.map (TrainEvent.modelUpdateCall it) := ⟨_, rfl⟩
    refine ⟨calls.map (TrainEvent.modelUpdateCall it), ?_, ?_⟩
    · rw [hcalls, hro]
    · intro e he
      rcases List.mem_map.mp he with ⟨L, _, hL⟩
      exact ⟨L, hL.symm⟩
  · rw [hact, hstab.2.2.2.2.2]
    exact hwr.1
  · rw [hvp, hstab.2.1]
    exact hwr.2.1
  · rw [holdlp, hstab.2.2.1]
    exact hwr.2.2.1
  · rw [hrew, hstab.2.2.2.1]
    exact hwr.2.2.2.1
  · rw [hmask, hstab.2.2.2.2.1]
    exact hwr.2.2.2.2.1
  · intro j x
    rw [hobs, hstab.1]
    exact congrFun (congrFun hwr.2.2.2.2.2 j) x

/-- Witness for C4 (`t_max = 1`, step `0`). -/
theorem rollout_collects_before_updates_witness :
    (0 : ℕ) < tinyConfig.tMax
      ∧ ((∃ upds, (trainIteration unitEnv unitModel unitFloats zeroSampler
              tinyConfig (fun _ _ => [0]) 0 () zeroRState).2.2
            = (List.range tinyConfig.tMax).map (TrainEvent.envStepCall 0) ++ upds
          ∧ ∀ e ∈ upds, ∃ L, e = TrainEvent.modelUpdateCall 0 L)
        ∧ (trainIteration unitEnv unitModel unitFloats zeroSampler tinyConfig
              (fun _ _ => [0]) 0 () zeroRState).2.1.actions 0
            = zeroSampler 0 0 (stepHeads unitModel ()
                (rolloutN unitEnv unitModel unitFloats zeroSampler () 0 0
                  zeroRState) 0)
        ∧ (trainIteration unitEnv unitModel unitFloats zeroSampler tinyConfig
              (fun _ _ => [0]) 0 () zeroRState).2.1.valuePredictions 0
            = stepVals unitModel ()
                (rolloutN unitEnv unitModel unitFloats zeroSampler () 0 0
                  zeroRState) 0
        ∧ (trainIteration unitEnv unitModel unitFloats zeroSampler tinyConfig
              (fun _ _ => [0]) 0 () zeroRState).2.1.oldLogProbs 0
            = (fun j => unitFloats.logSoftmaxAt
                (stepHeads unitModel ()
                  (rolloutN unitEnv unitModel unitFloats zeroSampler () 0 0
                    zeroRState) 0 j)
                (zeroSampler 0 0 (stepHeads unitModel ()
                  (rolloutN unitEnv unitModel unitFloats zeroSampler () 0 0
                    zeroRState) 0) j))
        ∧ (trainIteration unitEnv unitModel unitFloats zeroSampler tinyConfig
              (fun _ _ => [0]) 0 () zeroRState).2.1.rewards 0
            = (stepOut unitEnv unitModel zeroSampler () 0 0
                (rolloutN unitEnv unitModel unitFloats zeroSampler () 0 0
                  zeroRState)).2.2.1
        ∧ (trainIteration unitEnv unitModel unitFloats zeroSampler tinyConfig
              (fun _ _ => [0]) 0 () zeroRState).2.1.masks 0
            = (fun j => if (stepOut unitEnv unitModel zeroSampler () 0 0
                (rolloutN unitEnv unitModel unitFloats zeroSampler () 0 0
                  zeroRState)).2.2.2 j then 0 else 1)
        ∧ (∀ j x, (trainIteration unitEnv unitModel unitFloats zeroSampler
              tinyConfig (fun _ _ => [0]) 0 () zeroRState).2.1.observations
                (0 + 1) j x
            = (stepOut unitEnv unitModel zeroSampler () 0 0
                (rolloutN unitEnv unitModel unitFloats zeroSampler () 0 0
                  zeroRState)).2.1 j x
              * (if (stepOut unitEnv unitModel zeroSampler () 0 0
                  (rolloutN unitEnv unitModel unitFloats zeroSampler () 0 0
                    zeroRState)).2.2.2 j then 0 else 1))) :=
  ⟨by decide,
   rollout_collects_before_updates unitEnv unitModel unitFloats zeroSampler
     tinyConfig (fun _ _ => [0]) 0 () zeroRState 0 (by decide)⟩

/-- Case analysis of the evaluation tail: the loop can only break when the
evaluator, score name and scheduler are all present, the iteration index hits
the evaluation interval, and the post-step learning rate is exactly 0; and
the tail emits nothing but `store_model` calls. -/
lemma evalPhase_anatomy (M : PPOModel θ μ P) (C : EvalCtx θ σ S) (i : ℕ)
    (w : θ) (sched : σ) (best : Option ℚ) :
    ((evalPhase M C i w sched best).2.2.2.2 = true →
      C.evaluator.isSome = true ∧ C.scoreName.isSome = true
        ∧ C.lrSched.isSome = true ∧ i % C.evalInterval = 0
        ∧ M.lrOf (evalPhase M C i w sched best).1 = 0)
      ∧ (∀ e ∈ (evalPhase M C i w sched best).2.2.2.1,
          ∃ i', e = TrainEvent.storeModelCall i') := by
  rcases hev : C.evaluator with _ | ev
  · have hres : evalPhase M C i w sched best = (w, sched, best, [], false) := by
      simp [evalPhase, hev]
    rw [hres]
    exact ⟨fun hbrk => by simp at hbrk, fun e he => by simp at he⟩
  · by_cases hmod : i % C.evalInterval = 0
    · rcases hsn : C.scoreName with _ | sn
      · have hres : evalPhase M C i w sched best = (w, sched, best, [], false) := by
          simp [evalPhase, hev, hmod, hsn]
        rw [hres]
        exact ⟨fun hbrk => by simp at hbrk, fun e he => by simp at he⟩
      · rcases hls : C.lrSched with _ | st
        · by_cases himp : improvementB C.highIsBetter best (ev i w sn) = true
          · have hres : evalPhase M C i w sched best
                = (w, sched, some (ev i w sn),
                    [TrainEvent.storeModelCall i], false) := by
              simp [evalPhase, hev, hmod, hsn, hls, himp]
            rw [hres]
            refine ⟨fun hbrk => by simp at hbrk, fun e he => ?_⟩
            simp at he
            exact ⟨i, he⟩
          · have hres : evalPhase M C i w sched best
                = (w, sched, best, [], false) := by
              simp [evalPhase, hev, hmod, hsn, hls, himp]
            rw [hres]
            exact ⟨fun hbrk => by simp at hbrk, fun e he => by simp at he⟩
        · by_cases hlr : M.lrOf (st sched w (ev i w sn)).2 = 0
          · have hres : evalPhase M C i w sched best
                = ((st sched w (ev i w sn)).2, (st sched w (ev i w sn)).1,
                    best, [], true) := by
              simp [evalPhase, hev, hmod, hsn, hls, hlr]
            rw [hres]
            refine ⟨fun _ => ⟨by simp [hev], by simp [hsn], by simp [hls],
              hmod, hlr⟩, fun e he => by simp at he⟩
          · by_cases himp : improvementB C.highIsBetter best (ev i w sn) = true
            · have hres : evalPhase M C i w sched best
                  = ((st sched w (ev i w sn)).2, (st sched w (ev i w sn)).1,
                      some (ev i w sn), [TrainEvent.storeModelCall i], false) := by
                simp [evalPhase, hev, hmod, hsn, hls, hlr, himp]
              rw [hres]
              refine ⟨fun hbrk => by simp at hbrk, fun e he => ?_⟩
              simp at he
              exact ⟨i, he⟩
            · have hres : evalPhase M C i w sched best
                  = ((st sched w (ev i w sn)).2, (st sched w (ev i w sn)).1,
                      best, [], false) := by
                simp [evalPhase, hev, hmod, hsn, hls, hlr, himp]
              rw [hres]
              exact ⟨fun hbrk => by simp at hbrk, fun e he => by simp at he⟩
    · have hres : evalPhase M C i w sched best = (w, sched, best, [], false) := by
        simp [evalPhase, hev, hmod]
      rw [hres]
      exact ⟨fun hbrk => by simp at hbrk, fun e he => by simp at he⟩

/-- An update iteration emits only `env.step` and `model.update` events. -/
lemma trainIteration_no_reset (E : EnvOps μ EnvS) (M : PPOModel θ μ P)
    (F : FloatOps P) (sampleA : ℕ → ℕ → (ℕ → P) → ℕ → ℤ) (cfg : PPOConfig)
    (perms : ℕ → ℕ → List ℕ) (it : ℕ) (w : θ) (s : RState μ EnvS) :
    ∀ e ∈ (trainIteration E M F sampleA cfg perms it w s).2.2,
      e ≠ TrainEvent.envResetCall := by
  intro e he
  obtain ⟨calls, hcalls⟩ :
      ∃ calls : List (ℚ × ℚ × ℚ),
        (trainIteration E M F sampleA cfg perms it w s).2.2
          = (rolloutLoopEv E M F sampleA w it cfg.tMax s).2
            ++ calls.map (TrainEvent.modelUpdateCall it) := ⟨_, rfl⟩
  rw [hcalls] at he
  have h2 : (rolloutLoopEv E M F sampleA w it cfg.tMax s).2
      = (List.range cfg.tMax).map (TrainEvent.envStepCall it) := by
    rw [rolloutLoopEv_spec]
  rw [h2] at he
  rcases List.mem_append.mp he with h | h
  · rcases List.mem_map.mp h with ⟨a, _, rfl⟩
    simp
  · rcases List.mem_map.mp h with ⟨L, _, rfl⟩
    simp

lemma trainAux_length_le (E : EnvOps μ EnvS) (M : PPOModel θ μ P)
    (F : FloatOps P) (sampleA : ℕ → ℕ → (ℕ → P) → ℕ → ℤ) (cfg : PPOConfig)
    (C : EvalCtx θ σ S) (perms : ℕ → ℕ → List ℕ) :
    ∀ (fuel i : ℕ) (st : LoopState θ σ μ EnvS),
      (trainAux E M F sampleA cfg C perms fuel i st).2.1.length ≤ fuel := by
  intro fuel
  induction fuel with
  | zero => intro i st; simp [trainAux]
  | succ fuel ih =>
    intro i st
    by_cases hbrk : (evalPhase M C i
        (trainIteration E M F sampleA cfg perms i st.w st.r).1
        st.sched st.best).2.2.2.2 = true
    · simp [trainAux, hbrk]
    · simp only [trainAux, hbrk]
      simp only [Bool.false_eq_true, if_false, List.length_cons]
      exact Nat.succ_le_succ (ih _ _)

lemma trainAux_ne_nil (E : EnvOps μ EnvS) (M : PPOModel θ μ P)
    (F : FloatOps P) (sampleA : ℕ → ℕ → (ℕ → P) → ℕ → ℤ) (cfg : PPOConfig)
    (C : EvalCtx θ σ S) (perms : ℕ → ℕ → List ℕ) :
    ∀ (fuel i : ℕ) (st : LoopState θ σ μ EnvS), fuel ≠ 0 →
      (trainAux E M F sampleA cfg C perms fuel i st).2.1 ≠ [] := by
  intro fuel i st hfuel
  match fuel with
  | 0 => exact absurd rfl hfuel
  | fuel + 1 =>
    by_cases hbrk : (evalPhase M C i
        (trainIteration E M F sampleA cfg perms i st.w st.r).1
        st.sched st.best).2.2.2.2 = true
    · simp [trainAux, hbrk]
    · simp [trainAux, hbrk]

/-- If the loop stops before exhausting its iteration budget, the stop came
from the learning-rate break: all three optional collaborators are present,
the final iteration index hits the evaluation interval, and the learning rate
of the final network state is exactly 0. -/
lemma trainAux_break_facts (E : EnvOps μ EnvS) (M : PPOModel θ μ P)
    (F : FloatOps P) (sampleA : ℕ → ℕ → (ℕ → P) → ℕ → ℤ) (cfg : PPOConfig)
    (C : EvalCtx θ σ S) (perms : ℕ → ℕ → List ℕ) :
    ∀ (fuel i : ℕ) (st : LoopState θ σ μ EnvS),
      (trainAux E M F sampleA cfg C perms fuel i st).2.1.length < fuel →
        C.evaluator.isSome = true ∧ C.scoreName.isSome = true
          ∧ C.lrSched.isSome = true
          ∧ M.lrOf (trainAux E M F sampleA cfg C perms fuel i st).1.w = 0
          ∧ ∃ iLast, (trainAux E M F sampleA cfg C perms fuel i st).2.1.getLast?
              = some iLast ∧ iLast % C.evalInterval = 0 := by
  intro fuel
  induction fuel with
  | zero => intro i st h; omega
  | succ fuel ih =>
    intro i st hlen
    by_cases hbrk : (evalPhase M C i
        (trainIteration E M F sampleA cfg perms i st.w st.r).1
        st.sched st.best).2.2.2.2 = true
    · have hfacts := (evalPhase_anatomy M C i
        (trainIteration E M F sampleA cfg perms i st.w st.r).1
        st.sched st.best).1 hbrk
      have hres : trainAux E M F sampleA cfg C perms (fuel + 1) i st
          = (⟨(evalPhase M C i
                (trainIteration E M F sampleA cfg perms i st.w st.r).1
                st.sched st.best).1,
              (evalPhase M C i
                (trainIteration E M F sampleA cfg perms i st.w st.r).1
                st.sched st.best).2.1,
              (evalPhase M C i
                (trainIteration E M F sampleA cfg perms i st.w st.r).1
                st.sched st.best).2.2.1,
              (trainIteration E M F sampleA cfg perms i st.w st.r).2.1⟩,
             [i],
             (trainIteration E M F sampleA cfg perms i st.w st.r).2.2
               ++ (evalPhase M C i
                (trainIteration E M F sampleA cfg perms i st.w st.r).1
                st.sched st.best).2.2.2.1) := by
        simp [trainAux, hbrk]
      rw [hres]
      exact ⟨hfacts.1, hfacts.2.1, hfacts.2.2.1, hfacts.2.2.2.2,
        ⟨i, rfl, hfacts.2.2.2.1⟩⟩
    · have hres : trainAux E M F sampleA cfg C perms (fuel + 1) i st
          = ((trainAux E M F sampleA cfg C perms fuel (i + 1)
              ⟨(evalPhase M C i
                  (trainIteration E M F sampleA cfg perms i st.w st.r).1
                  st.sched st.best).1,
                (evalPhase M C i
                  (trainIteration E M F sampleA cfg perms i st.w st.r).1
                  st.sched st.best).2.1,
                (evalPhase M C i
                  (trainIteration E M F sampleA cfg perms i st.w st.r).1
                  st.sched st.best).2.2.1,
                (trainIteration E M F sampleA cfg perms i st.w st.r).2.1⟩).1,
             i :: (trainAux E M F sampleA cfg C perms fuel (i + 1)
              ⟨(evalPhase M C i
                  (trainIteration E M F sampleA cfg perms i st.w st.r).1
                  st.sched st.best).1,
                (evalPhase M C i
                  (trainIteration E M F sampleA cfg perms i st.w st.r).1
                  st.sched st.best).2.1,
                (evalPhase M C i
                  (trainIteration E M F sampleA cfg perms i st.w st.r).1
                  st.sched st.best).2.2.1,
                (trainIteration E M F sampleA cfg perms i st.w st.r).2.1⟩).2.1,
             (trainIteration E M F sampleA cfg perms i st.w st.r).2.2
               ++ (evalPhase M C i
                  (trainIteration E M F sampleA cfg perms i st.w st.r).1
                  st.sched st.best).2.2.2.1
               ++ (if i % C.dumpInterval = 0
                  then [TrainEvent.storeModelCall i] else [])
               ++ (trainAux E M F sampleA cfg C perms fuel (i + 1)
              ⟨(evalPhase M C i
                  (trainIteration E M F sampleA cfg perms i st.w st.r).1
                  st.sched st.best).1,
                (evalPhase M C i
                  (trainIteration E M F sampleA cfg perms i st.w st.r).1
                  st.sched st.best).2.1,
                (evalPhase M C i
                  (trainIteration E M F sampleA cfg perms i st.w st.r).1
                  st.sched st.best).2.2.1,
                (trainIteration E M F sampleA cfg perms i st.w st.r).2.1⟩).2.2) := by
        simp [trainAux, hbrk]
      rw [hres] at hlen ⊢
      simp only [List.length_cons] at hlen
      have hnext : (trainAux E M F sampleA cfg C perms fuel (i + 1)
          ⟨(evalPhase M C i
              (trainIteration E M F sampleA cfg perms i st.w st.r).1
              st.sched st.best).1,
            (evalPhase M C i
              (trainIteration E M F sampleA cfg perms i st.w st.r).1
              st.sched st.best).2.1,
            (evalPhase M C i
              (trainIteration E M F sampleA cfg perms i st.w st.r).1
              st.sched st.best).2.2.1,
            (trainIteration E M F sampleA cfg perms i st.w st.r).2.1⟩).2.1.length
          < fuel := by omega
      have hfuel : fuel ≠ 0 := by omega
      obtain ⟨h1, h2, h3, h4, iLast, h5, h6⟩ := ih _ _ hnext
      refine ⟨h1, h2, h3, h4, ⟨iLast, ?_, h6⟩⟩
      have hne := trainAux_ne_nil E M F sampleA cfg C perms fuel (i + 1)
        ⟨(evalPhase M C i
            (trainIteration E M F sampleA cfg perms i st.w st.r).1
            st.sched st.best).1,
          (evalPhase M C i
            (trainIteration E M F sampleA cfg perms i st.w st.r).1
            st.sched st.best).2.1,
          (evalPhase M C i
            (trainIteration E M F sampleA cfg perms i st.w st.r).1
            st.sched st.best).2.2.1,
          (trainIteration E M F sampleA cfg perms i st.w st.r).2.1⟩ hfuel
      match hcase : (trainAux E M F sampleA cfg C perms fuel (i + 1)
          ⟨(evalPhase M C i
              (trainIteration E M F sampleA cfg perms i st.w st.r).1
              st.sched st.best).1,
            (evalPhase M C i
              (trainIteration E M F sampleA cfg perms i st.w st.r).1
              st.sched st.best).2.1,
            (evalPhase M C i
              (trainIteration E M F sampleA cfg perms i st.w st.r).1
              st.sched st.best).2.2.1,
            (trainIteration E M F sampleA cfg perms i st.w st.r).2.1⟩).2.1 with
      | [] => exact absurd hcase hne
      | b :: l =>
        rw [hcase] at h5
        rw [List.getLast?_cons_cons]
        exact h5

lemma trainAux_no_reset (E : EnvOps μ EnvS) (M : PPOModel θ μ P)
    (F : FloatOps P) (sampleA : ℕ → ℕ → (ℕ → P) → ℕ → ℤ) (cfg : PPOConfig)
    (C : EvalCtx θ σ S) (perms : ℕ → ℕ → List ℕ) :
    ∀ (fuel i : ℕ) (st : LoopState θ σ μ EnvS),
      ∀ e ∈ (trainAux E M F sampleA cfg C perms fuel i st).2.2,
        e ≠ TrainEvent.envResetCall := by
  intro fuel
  induction fuel with
  | zero => intro i st e he; simp [trainAux] at he
  | succ fuel ih =>
    intro i st e he
    by_cases hbrk : (evalPhase M C i
        (trainIteration E M F sampleA cfg perms i st.w st.r).1
        st.sched st.best).2.2.2.2 = true
    · simp only [trainAux, hbrk, if_true] at he
      rcases List.mem_append.mp he with h | h
      · exact trainIteration_no_reset E M F sampleA cfg perms i st.w st.r e h
      · obtain ⟨i', hi'⟩ := (evalPhase_anatomy M C i
          (trainIteration E M F sampleA cfg perms i st.w st.r).1
          st.sched st.best).2 e h
        subst hi'; simp
    · simp only [trainAux, hbrk, Bool.false_eq_true, if_false] at he
      rcases List.mem_append.mp he with h | h
      · rcases List.mem_append.mp h with h' | h'
        · rcases List.mem_append.mp h' with h'' | h''
          · exact trainIteration_no_reset E M F sampleA cfg perms i st.w st.r e h''
          · obtain ⟨i', hi'⟩ := (evalPhase_anatomy M C i
              (trainIteration E M F sampleA cfg perms i st.w st.r).1
              st.sched st.best).2 e h''
            subst hi'; simp
        · by_cases hdump : i % C.dumpInterval = 0
          · simp only [hdump, if_pos] at h'
            simp at h'
            subst h'; simp
          · simp [hdump] at h'
      · exact ih _ _ e h

/-- **C6.** Training is one continuous trajectory: every update iteration
copies the final (slot `t_max`) observations of its rollout into slot 0, so
the next iteration's rollout starts from them; the first iteration starts
from the observations returned by `env.reset()`; and a call to `train` calls
`env.reset` exactly once. -/
theorem one_reset_then_continuous_trajectory (E : EnvOps μ EnvS)
    (M : PPOModel θ μ P) (F : FloatOps P)
    (sampleA : ℕ → ℕ → (ℕ → P) → ℕ → ℤ) (cfg : PPOConfig)
    (C : EvalCtx θ σ S) (perms : ℕ → ℕ → List ℕ) :
    (∀ (it : ℕ) (w : θ) (s : RState μ EnvS) (j : ℕ) (x : μ),
        (trainIteration E M F sampleA cfg perms it w s).2.1.observations 0 j x
          = (rolloutN E M F sampleA w it cfg.tMax s).observations cfg.tMax j x)
      ∧ (∀ (env0 : EnvS) (j : ℕ) (x : μ),
          (initialRState E env0).observations 0 j x = (E.reset env0).2 j x)
      ∧ (∀ (maxUpdates : ℕ) (w0 : θ) (sched0 : σ) (env0 : EnvS),
          ((train E M F sampleA cfg C perms maxUpdates w0 sched0
              env0).2.2).countP
            (fun e => decide (e = TrainEvent.envResetCall)) = 1) := by
  refine ⟨?_, ?_, ?_⟩
  · intro it w s j x
    have h1 : (trainIteration E M F sampleA cfg perms it w s).2.1.observations 0
        = (rolloutLoopEv E M F sampleA w it cfg.tMax s).1.observations
            cfg.tMax := by
      show Function.update
          (rolloutLoopEv E M F sampleA w it cfg.tMax s).1.observations 0
          ((rolloutLoopEv E M F sampleA w it cfg.tMax s).1.observations
            cfg.tMax) 0
        = (rolloutLoopEv E M F sampleA w it cfg.tMax s).1.observations cfg.tMax
      exact Function.update_same _ _ _
    rw [h1, rolloutLoopEv_spec]
  · intro env0 j x
    simp [initialRState, Function.update_same]
  · intro maxUpdates w0 sched0 env0
    have hzero : ((trainAux E M F sampleA cfg C perms maxUpdates 1
        ⟨w0, sched0, none, initialRState E env0⟩).2.2).countP
        (fun e => decide (e = TrainEvent.envResetCall)) = 0 := by
      apply List.countP_eq_zero.mpr
      intro e he
      simp only [decide_eq_true_eq]
      exact trainAux_no_reset E M F sampleA cfg C perms maxUpdates 1
        ⟨w0, sched0, none, initialRState E env0⟩ e he
    show (TrainEvent.envResetCall :: (trainAux E M F sampleA cfg C perms
        maxUpdates 1 ⟨w0, sched0, none, initialRState E env0⟩).2.2).countP
        (fun e => decide (e = TrainEvent.envResetCall)) = 1
    rw [List.countP_cons, hzero]
    simp

/-- **C7.** `train` executes at most `max_updates` update iterations, and it
stops earlier only when the evaluator, score name and scheduler are all
supplied and a scheduler step drives the learning rate to exactly 0 at an
evaluation-interval iteration (at which point the loop breaks). -/
theorem train_stops_at_budget_or_zero_lr (E : EnvOps μ EnvS)
    (M : PPOModel θ μ P) (F : FloatOps P)
    (sampleA : ℕ → ℕ → (ℕ → P) → ℕ → ℤ) (cfg : PPOConfig)
    (C : EvalCtx θ σ S) (perms : ℕ → ℕ → List ℕ) (maxUpdates : ℕ)
    (w0 : θ) (sched0 : σ) (env0 : EnvS) :
    (train E M F sampleA cfg C perms maxUpdates w0 sched0 env0).2.1.length
        ≤ maxUpdates
      ∧ ((train E M F sampleA cfg C perms maxUpdates w0 sched0 env0).2.1.length
            < maxUpdates →
          C.evaluator.isSome = true ∧ C.scoreName.isSome = true
            ∧ C.lrSched.isSome = true
            ∧ M.lrOf (train E M F sampleA cfg C perms maxUpdates w0 sched0
                env0).1.w = 0
            ∧ ∃ iLast, (train E M F sampleA cfg C perms maxUpdates w0 sched0
                  env0).2.1.getLast? = some iLast
                ∧ iLast % C.evalInterval = 0) := by
  constructor
  · exact trainAux_length_le E M F sampleA cfg C perms maxUpdates 1
      ⟨w0, sched0, none, initialRState E env0⟩
  · intro hlt
    exact trainAux_break_facts E M F sampleA cfg C perms maxUpdates 1
      ⟨w0, sched0, none, initialRState E env0⟩ hlt

/-- Witness for C7: a scheduler that zeroes the learning rate at the first
evaluation makes training stop after one of two budgeted updates. -/
theorem train_stops_at_budget_or_zero_lr_witness :
    ((train quietEnv lrModel unitFloats zeroSampler tinyConfig haltingEvalCtx
          (fun _ _ => [0]) 2 1 () ()).2.1.length ≤ 2
      ∧ ((train quietEnv lrModel unitFloats zeroSampler tinyConfig
            haltingEvalCtx (fun _ _ => [0]) 2 1 () ()).2.1.length < 2 →
          haltingEvalCtx.evaluator.isSome = true
            ∧ haltingEvalCtx.scoreName.isSome = true
            ∧ haltingEvalCtx.lrSched.isSome = true
            ∧ lrModel.lrOf (train quietEnv lrModel unitFloats zeroSampler
                tinyConfig haltingEvalCtx (fun _ _ => [0]) 2 1 () ()).1.w = 0
            ∧ ∃ iLast, (train quietEnv lrModel unitFloats zeroSampler
                  tinyConfig haltingEvalCtx (fun _ _ => [0]) 2 1 () ()).2.1.getLast?
                = some iLast ∧ iLast % haltingEvalCtx.evalInterval = 0))
      ∧ (train quietEnv lrModel unitFloats zeroSampler tinyConfig
          haltingEvalCtx (fun _ _ => [0]) 2 1 () ()).2.1 = [1] :=
  ⟨train_stops_at_budget_or_zero_lr quietEnv lrModel unitFloats zeroSampler
     tinyConfig haltingEvalCtx (fun _ _ => [0]) 2 1 () (),
   by decide⟩

end PPO
